import Mathlib

/-!
Shallow embedding of the chapter pipeline scripts of the 2028WW3 repository
(chapter cleaner, chapter/asset synchronizer, WordPress publisher), with
theorems settling the specification claims.

Strings are modelled as `List Char`.  JavaScript regular-expression
replacements are modelled by structurally recursive scanners mirroring the
left-to-right, non-overlapping global-replace semantics of
`String.prototype.replace` with the `g` flag (matches are found in the
original string; replacement output is not rescanned).
-/

set_option maxRecDepth 16000

/-- Whitespace test mirroring the JavaScript regexp class `\s` (and `trim`)
for the character set occurring in this repository's data: ASCII whitespace
plus NBSP, ideographic space and BOM. -/
def isJsWs (c : Char) : Bool :=
  c.toNat = 32 || c.toNat = 9 || c.toNat = 10 || c.toNat = 13 ||
  c.toNat = 11 || c.toNat = 12 ||
  c.toNat = 0xa0 || c.toNat = 0x3000 || c.toNat = 0xfeff

/-- Model of JavaScript `String.prototype.trim` on a character list. -/
def jsTrim (l : List Char) : List Char :=
  ((l.dropWhile isJsWs).reverse.dropWhile isJsWs).reverse

/-- ASCII lower-casing, the case folding relevant for the `/i` regexp flag
and for `toLowerCase` on the ASCII tag and extension names the scripts use. -/
def asciiLower (c : Char) : Char :=
  if 'A' ≤ c ∧ c ≤ 'Z' then Char.ofNat (c.toNat + 32) else c

/-! ## Chapter Cleaner (`scripts/clean-chapters.js`, `cleanChapter`) -/

/-- The metadata opening tag of the cleaner's first replace, lower-cased. -/
def metaOpen : List Char := "<metadata>".toList

/-- The metadata closing tag, lower-cased. -/
def metaClose : List Char := "</metadata>".toList

/-- Case-insensitive test for the opening tag at the head of the input. -/
def isOpenAt (l : List Char) : Bool := (l.take 10).map asciiLower = metaOpen

/-- Case-insensitive test for the closing tag at the head of the input. -/
def isCloseAt (l : List Char) : Bool := (l.take 11).map asciiLower = metaClose

/-- True when a closing tag occurs at some position of the input. -/
def hasCloser : List Char → Bool
  | [] => false
  | c :: rest => isCloseAt (c :: rest) || hasCloser rest

/-- True when an opening tag occurs at some position of the input. -/
def hasOpener : List Char → Bool
  | [] => false
  | c :: rest => isOpenAt (c :: rest) || hasOpener rest

/-- Scanner state for the removal of metadata blocks
(the replace of `<metadata>[\s\S]*?<\/metadata>\s*` by the empty string):
`normal` scans for an opening tag, `seek` lazily scans for the first closing
tag of a started match, `del k` discards the remaining `k` characters of a
found closing tag, with `del 0` also discarding the trailing `\s*` run. -/
inductive CMState
  | normal
  | seek
  | del (k : Nat)
  deriving DecidableEq

/-- Removal of `<metadata>...</metadata>` blocks (case-insensitive, lazy body,
trailing whitespace eaten), as a single left-to-right scan.  A match starts at
an opening tag only when a closing tag still occurs later (otherwise the
JavaScript regexp fails at that start position, and at every later one). -/
def cmAux : CMState → List Char → List Char
  | _, [] => []
  | .normal, c :: rest =>
    if isOpenAt (c :: rest) && hasCloser rest then cmAux .seek rest
    else c :: cmAux .normal rest
  | .seek, c :: rest =>
    if isCloseAt (c :: rest) then cmAux (.del 10) rest else cmAux .seek rest
  | .del (k+1), _ :: rest => cmAux (.del k) rest
  | .del 0, c :: rest =>
    if isJsWs c then cmAux (.del 0) rest
    else if isOpenAt (c :: rest) && hasCloser rest then cmAux .seek rest
    else c :: cmAux .normal rest

/-- First cleaning step: remove metadata blocks. -/
def cleanMetadataBlocks (l : List Char) : List Char := cmAux .normal l

/-- Split on newline characters; `n` newlines yield `n + 1` lines. -/
def linesOf : List Char → List (List Char)
  | [] => [[]]
  | c :: rest =>
    if c = '\n' then [] :: linesOf rest
    else
      match linesOf rest with
      | l :: ls => (c :: l) :: ls
      | [] => [[c]]

/-- Join lines back with newline separators. -/
def joinLines : List (List Char) → List Char
  | [] => []
  | [l] => l
  | l :: ls => l ++ '\n' :: joinLines ls

/-- The five labelled-bullet line patterns removed by the cleaner
(each regexp `^- \*\*LABEL\*\*：.*$` with the `gm` flags blanks every line
starting with the corresponding prefix). -/
def labelPrefixes : List (List Char) :=
  ["- **字數目標**：".toList, "- **POV**：".toList, "- **時間軸**：".toList,
   "- **核心主題**：".toList, "- **場景**：".toList]

/-- One labelled-bullet removal pass: every line starting with the prefix is
replaced by an empty line. -/
def stripLabeled (pfx : List Char) (l : List Char) : List Char :=
  joinLines ((linesOf l).map (fun line => if line.take pfx.length = pfx then [] else line))

/-- The five labelled-bullet removal passes, in source order. -/
def stripAllLabeled (l : List Char) : List Char :=
  labelPrefixes.foldl (fun acc p => stripLabeled p acc) l

/-- Replacement text for one maximal newline run of length `n` under the
collapse step: runs of four or more newlines become exactly three. -/
def emitNl (n : Nat) : List Char := List.replicate (min n 3) '\n'

/-- Scanner for the replace of `\n{4,}` by three newlines; `n` counts the
pending newlines of the current run. -/
def collapseAux : Nat → List Char → List Char
  | n, [] => emitNl n
  | n, c :: rest =>
    if c = '\n' then collapseAux (n+1) rest
    else emitNl n ++ c :: collapseAux 0 rest

/-- Third cleaning step: collapse runs of four or more newlines to three. -/
def collapseNewlines (l : List Char) : List Char := collapseAux 0 l

/-- The five characters `---\n\n` whose occurrence triggers the front-matter
blank-line replace `(---\n)\n+` → `$1\n`. -/
def fmPat : List Char := "---\n\n".toList

/-- Scanner for the replace of `(---\n)\n+` by `---\n\n`: on a match the five
pattern characters are kept and the remaining newlines of the greedy `\n+` run
are discarded (`sk` true records that such a discard is in progress). -/
def fmAux : Bool → List Char → List Char
  | _, [] => []
  | _, '-' :: '-' :: '-' :: '\n' :: '\n' :: rest =>
    '-' :: '-' :: '-' :: '\n' :: '\n' :: fmAux true rest
  | sk, c :: rest =>
    if sk && c = '\n' then fmAux true rest
    else c :: fmAux false rest

/-- Fourth cleaning step: one newline is kept after a matched front-matter
delimiter, the rest of the run is removed. -/
def fixFrontmatterBlanks (l : List Char) : List Char := fmAux false l

/-- The cleaner's whole per-file transformation (`cleanChapter` in
`scripts/clean-chapters.js`): metadata blocks, then the five labelled-bullet
removals, then the newline collapse, then the front-matter blank-line fix. -/
def cleanChapter (content : List Char) : List Char :=
  fixFrontmatterBlanks (collapseNewlines (stripAllLabeled (cleanMetadataBlocks content)))

/-! ## Chapter/Asset Synchronizer (`sync-chapters.js`) -/

/-- Decimal value of a digit list, as read by `parseInt(s, 10)`. -/
def digitsVal (ds : List Char) : Nat :=
  ds.foldl (fun n c => n * 10 + (c.toNat - 48)) 0

/-- Successful-match test for the search regexp `Chap_(\d+)(?:-([A-Z]))?` at
the head of the input: the literal `Chap_` followed by at least one digit. -/
def chapHeadMatch (l : List Char) : Bool :=
  l.take 5 = "Chap_".toList &&
    (match l.drop 5 with
     | c :: _ => c.isDigit
     | [] => false)

/-- Captures of the order regexp at a matching position: the maximal digit
run after `Chap_`, and the optional sub-chapter letter value (A = 1, B = 2,
..., 0 when the optional group is absent). -/
def chapParseAt (l : List Char) : Nat × Nat :=
  let a := l.drop 5
  let ds := a.takeWhile Char.isDigit
  let rest := a.dropWhile Char.isDigit
  let s : Nat :=
    match rest with
    | '-' :: c :: _ => if c.isUpper then c.toNat - 64 else 0
    | _ => 0
  (digitsVal ds, s)

/-- Left-to-right search for the first position matching the order regexp. -/
def chapFind : List Char → Option (Nat × Nat)
  | [] => none
  | c :: rest =>
    if chapHeadMatch (c :: rest) then some (chapParseAt (c :: rest))
    else chapFind rest

/-- Order key of a chapter filename (`getChapterOrder`): main index times ten
plus sub-letter value, or the sentinel 999 when the search regexp fails. -/
def getChapterOrder (filename : List Char) : Nat :=
  match chapFind filename with
  | none => 999
  | some (m, s) => m * 10 + s

/-- Search for the first occurrence of `\n---`, returning the characters
before it and the characters after it. -/
def findDelim : List Char → Option (List Char × List Char)
  | [] => none
  | c :: rest =>
    if (c :: rest).take 4 = "\n---".toList then some ([], (c :: rest).drop 4)
    else
      match findDelim rest with
      | some (fm, after) => some (c :: fm, after)
      | none => none

/-- Front-matter extraction (`parseFrontmatter`): on a match of
`^---\n([\s\S]*?)\n---` the captured block and the trimmed remainder; else
no front matter and the whole content as the body. -/
def parseFrontmatter (content : List Char) : Option (List Char) × List Char :=
  if content.take 4 = "---\n".toList then
    match findDelim (content.drop 4) with
    | some (fm, after) => (some fm, jsTrim after)
    | none => (none, content)
  else (none, content)

/-- Split at the first colon: the characters before the first `:` and those
after it, when a colon occurs at all. -/
def colonSplit : List Char → Option (List Char × List Char)
  | [] => none
  | c :: rest =>
    if c = ':' then some ([], rest)
    else
      match colonSplit rest with
      | some (k, v) => some (c :: k, v)
      | none => none

/-- Quote test of the value normalisation regexp (double or single quote). -/
def isQuoteCh (c : Char) : Bool := c.toNat = 34 || c.toNat = 39

/-- One leading quote stripped, when present. -/
def stripLeadQuote : List Char → List Char
  | [] => []
  | c :: r => if isQuoteCh c then r else c :: r

/-- One trailing quote stripped, when present. -/
def stripTrailQuote (v : List Char) : List Char :=
  match v.reverse with
  | c :: r => if isQuoteCh c then r.reverse else v
  | [] => v

/-- The replace of the global regexp `^["']|["']$` by nothing: one leading
quote is stripped, then one trailing quote of the remainder. -/
def stripQuotes (v : List Char) : List Char := stripTrailQuote (stripLeadQuote v)

/-- One line of the YAML block (`parseYamlFrontmatter` loop body): accepted
when its first colon is at a positive index; the key is trimmed, the value
trimmed and quote-stripped. -/
def parseYamlLine (line : List Char) : Option (List Char × List Char) :=
  match colonSplit line with
  | some (k, v) => if k = [] then none else some (jsTrim k, stripQuotes (jsTrim v))
  | none => none

/-- The key-value pairs of a front-matter block, in line order (a missing
block yields the empty mapping). -/
def parseYamlFrontmatter (fm : Option (List Char)) : List (List Char × List Char) :=
  match fm with
  | none => []
  | some s => (linesOf s).filterMap parseYamlLine

/-- Last-wins lookup, the object-assignment semantics of the YAML loop. -/
def lastLookup (ps : List (List Char × List Char)) (k : List Char) : Option (List Char) :=
  ps.foldl (fun acc p => if p.1 = k then some p.2 else acc) none

/-- Lookup under JavaScript truthiness: an empty-string value is as absent. -/
def truthyLookup (ps : List (List Char × List Char)) (k : List Char) : Option (List Char) :=
  match lastLookup ps k with
  | some v => if v = [] then none else some v
  | none => none

/-- Attempt of the default-title regexp
`Chap_\d+(?:-[A-Z])?_[^_]+_(.+)\.md$` at the head of the input, returning
the captured title segment (which the regexp dot keeps newline-free). -/
def titleAttempt (l : List Char) : Option (List Char) :=
  if l.take 5 = "Chap_".toList then
    let a := l.drop 5
    let ds := a.takeWhile Char.isDigit
    if ds = [] then none
    else
      let b := a.dropWhile Char.isDigit
      let b2 := match b with
                | '-' :: ch :: r => if ch.isUpper then r else b
                | _ => b
      match b2 with
      | '_' :: r2 =>
        let seg := r2.takeWhile (fun c => ¬ c = '_')
        if seg = [] then none
        else
          match r2.dropWhile (fun c => ¬ c = '_') with
          | '_' :: r3 =>
            if 4 ≤ r3.length ∧ r3.drop (r3.length - 3) = ".md".toList ∧
                (r3.take (r3.length - 3)).all (fun c => ¬ c = '\n') then
              some (r3.take (r3.length - 3))
            else none
          | _ => none
      | _ => none
  else none

/-- Left-to-right search for the first position where the default-title
regexp matches. -/
def titleScan : List Char → Option (List Char)
  | [] => none
  | c :: rest =>
    match titleAttempt (c :: rest) with
    | some t => some t
    | none => titleScan rest

/-- Replacement of the first occurrence of `.md` by nothing
(`filename.replace(".md", "")` with a string pattern). -/
def removeFirstMd : List Char → List Char
  | [] => []
  | c :: rest =>
    if (c :: rest).take 3 = ".md".toList then rest.drop 2
    else c :: removeFirstMd rest

/-- The derived default title: the captured segment with underscores turned
into spaces, or the filename without its first `.md` when the regexp fails. -/
def defaultTitle (filename : List Char) : List Char :=
  match titleScan filename with
  | some t => t.map (fun c => if c = '_' then ' ' else c)
  | none => removeFirstMd filename

/-- Decimal digits of `n`, accumulator-based; fuel `n + 1` always suffices. -/
def natDigitsAux : Nat → Nat → List Char → List Char
  | 0, _, acc => acc
  | fuel + 1, n, acc =>
    if n < 10 then Char.ofNat (48 + n % 10) :: acc
    else natDigitsAux fuel (n / 10) (Char.ofNat (48 + n % 10) :: acc)

/-- Decimal rendering of a natural number (the template-literal rendering of
the integer `order`; chapter numbers stay far below the precision loss of
JavaScript doubles, so the idealisation to `Nat` is exact here). -/
def natRepr (n : Nat) : List Char := natDigitsAux (n + 1) n []

/-- Rendering of one generated front-matter line: string values quoted, the
numeric `order` value bare. -/
def renderLine (k v : List Char) (quoted : Bool) : List Char :=
  if quoted then k ++ ": \"".toList ++ v ++ ['"'] else k ++ ": ".toList ++ v

/-- The generated front-matter fields of `generateFrontmatter`, in object
insertion order: `title` (existing when truthy, else derived), `order`
(always freshly computed), then each `cover`, `cover_url`, `cover_media_id`
passthrough field that is present and truthy in the existing mapping.  The
Boolean marks quoted (string) rendering. -/
def genPairs (filename : List Char) (fm : Option (List Char)) :
    List (List Char × List Char × Bool) :=
  let ex := parseYamlFrontmatter fm
  let title := match truthyLookup ex "title".toList with
               | some t => t
               | none => defaultTitle filename
  [("title".toList, title, true),
   ("order".toList, natRepr (getChapterOrder filename), false)] ++
  (match truthyLookup ex "cover".toList with
   | some v => [("cover".toList, v, true)]
   | none => []) ++
  (match truthyLookup ex "cover_url".toList with
   | some v => [("cover_url".toList, v, true)]
   | none => []) ++
  (match truthyLookup ex "cover_media_id".toList with
   | some v => [("cover_media_id".toList, v, true)]
   | none => [])

/-- The regenerated front-matter block of `generateFrontmatter`, delimiters
included. -/
def generateFrontmatter (filename : List Char) (fm : Option (List Char)) : List Char :=
  "---\n".toList ++
  joinLines ((genPairs filename fm).map (fun p => renderLine p.1 p.2.1 p.2.2)) ++
  "\n---".toList

/-- The per-file body of `syncNovel`'s loop: the source content is parsed,
fresh front matter is generated from the filename and the source's own front
matter, and the destination file is overwritten with the regenerated block, a
blank line, and the source body.  The previous destination content is never
read. -/
def syncFile (filename srcContent : List Char) : List Char :=
  let pr := parseFrontmatter srcContent
  generateFrontmatter filename pr.1 ++ "\n\n".toList ++ pr.2

/-- The value of key `k` in the front matter of a content, read back by the
same parse a later sync run would perform. -/
def fmFieldOf (content : List Char) (k : List Char) : Option (List Char) :=
  lastLookup (parseYamlFrontmatter (parseFrontmatter content).1) k

/-- A node of the assets tree. -/
inductive FSTree
  | file (name : List Char)
  | dir (name : List Char) (children : List FSTree)

/-- The allowed image extensions of `syncAssets`. -/
def imageExts : List (List Char) :=
  [".jpg".toList, ".jpeg".toList, ".png".toList, ".gif".toList,
   ".webp".toList, ".svg".toList]

/-- Case-insensitive extension test
(`imageExts.some(ext => entry.name.toLowerCase().endsWith(ext))`). -/
def isImageName (name : List Char) : Bool :=
  imageExts.any (fun ext => (name.map asciiLower).drop (name.length - ext.length) = ext)

/-- The recursive copy of `syncAssets.copyDir`: directories are mirrored,
files are copied exactly when their lower-cased name ends with an allowed
image extension, and the per-level copy counts are summed recursively. -/
def copyDir : List FSTree → List FSTree × Nat
  | [] => ([], 0)
  | .file n :: rest =>
    let pr := copyDir rest
    if isImageName n then (.file n :: pr.1, pr.2 + 1) else (pr.1, pr.2)
  | .dir n ch :: rest =>
    let prc := copyDir ch
    let pr := copyDir rest
    (.dir n prc.1 :: pr.1, prc.2 + pr.2)

/-- Membership of a file at a path (directory names, then the file name). -/
def hasFile : List (List Char) → List FSTree → Bool
  | [], _ => false
  | n :: p, ts =>
    ts.any (fun t =>
      match t, p with
      | .file m, [] => m = n
      | .dir m ch, _ :: _ => m = n && hasFile p ch
      | _, _ => false)

/-- Number of files of a tree list, at every depth. -/
def countFiles : List FSTree → Nat
  | [] => 0
  | .file _ :: rest => countFiles rest + 1
  | .dir _ ch :: rest => countFiles ch + countFiles rest

/-! ## WordPress Publisher (`scripts/publish-to-wp.js`) -/

/-- Lazy search for the first `](` of the image regexp, failing at a newline
(the regexp dot does not match newlines); returns the remainder. -/
def findBrkParen : List Char → Option (List Char)
  | [] => none
  | ']' :: '(' :: r => some r
  | c :: rest => if c = '\n' then none else findBrkParen rest

/-- Lazy search for the first `)` of the image regexp, failing at a newline;
returns the remainder. -/
def findParen : List Char → Option (List Char)
  | [] => none
  | ')' :: r => some r
  | c :: rest => if c = '\n' then none else findParen rest

/-- The replace of `!\[.*?\]\(.*?\)` by nothing, fuelled (each step consumes
at least one character, so fuel `length + 1` suffices). -/
def stripImagesF : Nat → List Char → List Char
  | 0, l => l
  | _, [] => []
  | fuel + 1, '!' :: '[' :: rest =>
    (match findBrkParen rest with
     | some r2 =>
       match findParen r2 with
       | some r3 => stripImagesF fuel r3
       | none => '!' :: stripImagesF fuel ('[' :: rest)
     | none => '!' :: stripImagesF fuel ('[' :: rest))
  | fuel + 1, c :: rest => c :: stripImagesF fuel rest

/-- First excerpt step: remove inline image markup. -/
def stripImages (l : List Char) : List Char := stripImagesF (l.length + 1) l

/-- Characters removed by the second excerpt replace: hash, asterisk,
underscore and backtick. -/
def isMdMark (c : Char) : Bool := c = '#' || c = '*' || c = '_' || c.toNat = 96

/-- Scanner for the replace of `\n+` by a single space; the flag records a
newline run in progress. -/
def nlToSpaceAux : Bool → List Char → List Char
  | _, [] => []
  | inRun, c :: rest =>
    if c = '\n' then
      (if inRun then nlToSpaceAux true rest else ' ' :: nlToSpaceAux true rest)
    else c :: nlToSpaceAux false rest

/-- Third excerpt step: newline runs become single spaces. -/
def nlToSpace (l : List Char) : List Char := nlToSpaceAux false l

/-- The stripped plain text of `createExcerpt`: image markup removed,
markdown marks removed, newline runs replaced by single spaces, trimmed. -/
def plainTextOf (content : List Char) : List Char :=
  jsTrim (nlToSpace ((stripImages content).filter (fun c => ¬ isMdMark c)))

/-- The replace of `\s+\S*$` by nothing: when the input contains whitespace,
the last whitespace run and everything after it are removed; otherwise the
regexp fails and the input is unchanged. -/
def dropLastPartialWord (p : List Char) : List Char :=
  let r := p.reverse
  let r1 := r.dropWhile (fun c => ¬ isJsWs c)
  match r1 with
  | [] => p
  | _ :: _ => (r1.dropWhile isJsWs).reverse

/-- The excerpt builder (`createExcerpt` with its default maxLength 500):
the plain text itself when it fits, else the 500-character prefix with its
trailing partial word removed and an ellipsis appended. -/
def createExcerpt (content : List Char) : List Char :=
  let plainText := plainTextOf content
  if plainText.length ≤ 500 then plainText
  else dropLastPartialWord (plainText.take 500) ++ "...".toList

/-- HTTP method of the upsert request. -/
inductive HttpMethod
  | post
  | put
  deriving DecidableEq

/-- Payload of the upsert request (`postData` in `postToWordPress`). -/
structure PostData where
  title : List Char
  content : List Char
  excerpt : List Char
  slug : List Char
  status : List Char
  featured_media : Option Nat
  deriving DecidableEq

/-- A request against the posts API: method, endpoint, payload. -/
structure WPRequest where
  method : HttpMethod
  endpoint : List Char
  payload : PostData
  deriving DecidableEq

/-- The posts collection endpoint. -/
def postsEndpoint (wpUrl : List Char) : List Char :=
  wpUrl ++ "/wp-json/wp/v2/posts".toList

/-- The request issued by `postToWordPress`, as a function of the
existing-post lookup result (the identifier of the post found by slug, if
any): the payload always carries status `publish` and the optional featured
medium; an existing post is updated by `PUT` on its item endpoint, a missing
one created by `POST` on the collection endpoint. -/
def postToWordPress (wpUrl title content excerpt slug : List Char)
    (featuredMediaId : Option Nat) (existingPost : Option Nat) : WPRequest :=
  let postData : PostData :=
    { title := title, content := content, excerpt := excerpt, slug := slug,
      status := "publish".toList, featured_media := featuredMediaId }
  match existingPost with
  | some id =>
    { method := .put, endpoint := postsEndpoint wpUrl ++ '/' :: natRepr id,
      payload := postData }
  | none =>
    { method := .post, endpoint := postsEndpoint wpUrl, payload := postData }

/-- One publisher batch (`main` of `publish-to-wp.js`), the per-file
processing abstracted as a fallible step: arguments are filtered to the
markdown extension; an empty selection returns at once (exit 0); missing
credentials exit with code 1 before any per-file work; otherwise every file
is processed in order, an exception in one file is caught and recorded with
that file's name while the batch continues, and the exit code is 0. -/
def publisherMain (credsPresent : Bool) (files : List (List Char))
    (step : List Char → Except (List Char) Unit) :
    Nat × List (List Char × Bool) :=
  let mdFiles := files.filter (fun f => f.drop (f.length - 3) = ".md".toList)
  if mdFiles = [] then (0, [])
  else if ¬ credsPresent then (1, [])
  else (0, mdFiles.map (fun f => (f, (step f).isOk)))

/-! ## Claims -/

/-- C10: the order key is not injective over conforming filenames: the
sub-letter J of chapter 1 yields 1 * 10 + 10 = 20, the same order as plain
chapter 2, so sub-chapters J..Z can reorder past the next main chapter. -/
theorem getChapterOrder_collision :
    getChapterOrder "Chap_1-J_AB_T.md".toList = 20 ∧
    getChapterOrder "Chap_2_AB_T.md".toList = 20 ∧
    "Chap_1-J_AB_T.md".toList ≠ "Chap_2_AB_T.md".toList := by
  refine ⟨by decide, by decide, by decide⟩

/-- C5 (failing input): on `---` followed by two blank lines, the cleaner
rewrites the run to `---\n\n`, so one blank line still immediately follows
the front-matter delimiter, although the claim (and the code's own comment,
"Remove blank lines right after frontmatter") promises none remain. -/
theorem cleanChapter_frontmatter_blank_remains :
    cleanChapter "---\n\n\nChapter one".toList = "---\n\nChapter one".toList ∧
    (cleanChapter "---\n\n\nChapter one".toList).take 5 = fmPat ∧
    cleanChapter "---\n\n\nChapter one".toList ≠ "---\nChapter one".toList := by
  refine ⟨by decide, by decide, by decide⟩

/-- C3 (counterexample): cleaning is not idempotent.  Removing the inner
metadata block of this input splices the remaining characters into a fresh
`<metadata>Y</metadata>` block (the global replace does not rescan its own
output), and the second cleaning pass removes it, changing the output again. -/
theorem c3_counterexample :
    cleanChapter (cleanChapter "<meta<metadata>X</metadata>data>Y</metadata>".toList) ≠
      cleanChapter "<meta<metadata>X</metadata>data>Y</metadata>".toList := by
  decide

/-- C4 (counterexample): a run of exactly three newlines is not collapsed to
two by the cleaner; it is left unchanged (the collapse regexp only matches
four or more, and its replacement is three newlines, not two). -/
theorem c4_counterexample :
    cleanChapter "a\n\n\nb".toList = "a\n\n\nb".toList ∧
    "a\n\n\nb".toList ≠ "a\n\nb".toList := by
  refine ⟨by decide, by decide⟩

/-- C6 (counterexample): a 600-character whitespace-free body is cut in the
middle of its single word: the excerpt is the raw 500-character prefix plus
the ellipsis, because the word-boundary regexp `\s+\S*$` finds no whitespace
to anchor on, contradicting the claim's "never in the middle of a word". -/
theorem c6_counterexample :
    plainTextOf (List.replicate 600 'a') = List.replicate 600 'a' ∧
    createExcerpt (List.replicate 600 'a') =
      List.replicate 500 'a' ++ "...".toList ∧
    (List.replicate 600 'a').all (fun c => ¬ isJsWs c) = true := by
  refine ⟨by decide, by decide, by decide⟩

/-- C1 (counterexample): a `cover` present only in the destination is not
preserved.  The synchronizer reads the source file only: with a source that
has no `cover` and a previously synced destination that does, the freshly
written destination (which is `syncFile` of the source alone — the old
destination content is never read) has no `cover` field any more. -/
theorem c1_counterexample :
    fmFieldOf "---\ntitle: \"T\"\norder: 10\ncover: \"x.jpg\"\n---\nBody".toList
      "cover".toList = some "x.jpg".toList ∧
    fmFieldOf "---\ntitle: \"T\"\n---\nBody".toList "cover".toList = none ∧
    fmFieldOf (syncFile "Chap_1_AB_T.md".toList "---\ntitle: \"T\"\n---\nBody".toList)
      "cover".toList = none := by
  refine ⟨by decide, by decide, by decide⟩

/-- C7: the publisher upsert issues a POST to the posts collection endpoint
when no post with the slug exists, and a PUT to that post's item endpoint
when one does; the request payload is identical in both cases, and its
status is always `publish`. -/
theorem postToWordPress_upsert (wpUrl title content excerpt slug : List Char)
    (featuredMediaId : Option Nat) :
    (postToWordPress wpUrl title content excerpt slug featuredMediaId none).method
        = HttpMethod.post ∧
    (postToWordPress wpUrl title content excerpt slug featuredMediaId none).endpoint
        = postsEndpoint wpUrl ∧
    (∀ id, (postToWordPress wpUrl title content excerpt slug featuredMediaId
        (some id)).method = HttpMethod.put) ∧
    (∀ id, (postToWordPress wpUrl title content excerpt slug featuredMediaId
        (some id)).endpoint = postsEndpoint wpUrl ++ '/' :: natRepr id) ∧
    (∀ id, (postToWordPress wpUrl title content excerpt slug featuredMediaId
        (some id)).payload =
      (postToWordPress wpUrl title content excerpt slug featuredMediaId none).payload) ∧
    (∀ found, (postToWordPress wpUrl title content excerpt slug featuredMediaId
        found).payload.status = "publish".toList) := by
  refine ⟨rfl, rfl, fun _ => rfl, fun _ => rfl, fun _ => rfl, fun found => ?_⟩
  cases found <;> rfl

/-- C8: with credentials present, the publisher batch records an outcome for
every markdown argument in order — whatever errors the per-file steps raise,
every file still appears in the results — and the exit code is 0; exit code
1 arises only from the missing-credentials pre-flight check. -/
theorem publisherMain_isolation (files : List (List Char))
    (step : List Char → Except (List Char) Unit) :
    (publisherMain true files step).1 = 0 ∧
    (publisherMain true files step).2 =
      (files.filter (fun f => f.drop (f.length - 3) = ".md".toList)).map
        (fun f => (f, (step f).isOk)) ∧
    (∀ f, f ∈ files.filter (fun f => f.drop (f.length - 3) = ".md".toList) →
      (f, (step f).isOk) ∈ (publisherMain true files step).2) ∧
    (publisherMain false files step).1 =
      (if files.filter (fun f => f.drop (f.length - 3) = ".md".toList) = []
       then 0 else 1) := by
  by_cases h : files.filter (fun f => f.drop (f.length - 3) = ".md".toList) = []
  · refine ⟨?_, ?_, ?_, ?_⟩
    · simp only [publisherMain, h]
      simp
    · simp only [publisherMain, h]
      simp
    · intro f hf
      rw [h] at hf
      simp at hf
    · simp only [publisherMain, h]
      simp
  · refine ⟨?_, ?_, ?_, ?_⟩
    · simp only [publisherMain]
      rw [if_neg h]
      simp
    · simp only [publisherMain]
      rw [if_neg h]
      simp
    · intro f hf
      simp only [publisherMain]
      rw [if_neg h]
      simp only [not_true, if_false, ite_false]
      simpa using List.mem_map_of_mem (fun f => (f, (step f).isOk)) hf
    · simp only [publisherMain]
      rw [if_neg h, if_neg h]
      simp

/-- C8 (witness): a concrete three-file batch in which the middle file's
step raises; the other two files still appear in the results with success,
the failing one is recorded with its name, and the exit code is 0. -/
theorem publisherMain_isolation_witness :
    (publisherMain true ["a.md".toList, "bad.md".toList, "c.md".toList]
      (fun f => if f = "bad.md".toList then Except.error "cover".toList
                else Except.ok ())).1 = 0 ∧
    ("c.md".toList, true) ∈ (publisherMain true
      ["a.md".toList, "bad.md".toList, "c.md".toList]
      (fun f => if f = "bad.md".toList then Except.error "cover".toList
                else Except.ok ())).2 := by
  have h := publisherMain_isolation
    ["a.md".toList, "bad.md".toList, "c.md".toList]
    (fun f => if f = "bad.md".toList then Except.error "cover".toList
              else Except.ok ())
  refine ⟨h.1, ?_⟩
  have hm := h.2.2.1 "c.md".toList (by decide)
  simpa using hm

/-- Destination tree of `copyDir` on an image file entry. -/
theorem copyDir_fst_file_pos (n : List Char) (rest : List FSTree)
    (h : isImageName n = true) :
    (copyDir (.file n :: rest)).1 = .file n :: (copyDir rest).1 := by
  simp [copyDir, h]

/-- Count of `copyDir` on an image file entry. -/
theorem copyDir_snd_file_pos (n : List Char) (rest : List FSTree)
    (h : isImageName n = true) :
    (copyDir (.file n :: rest)).2 = (copyDir rest).2 + 1 := by
  simp [copyDir, h]

/-- Destination tree of `copyDir` on a skipped (non-image) file entry. -/
theorem copyDir_fst_file_neg (n : List Char) (rest : List FSTree)
    (h : isImageName n = false) :
    (copyDir (.file n :: rest)).1 = (copyDir rest).1 := by
  simp [copyDir, h]

/-- Count of `copyDir` on a skipped file entry. -/
theorem copyDir_snd_file_neg (n : List Char) (rest : List FSTree)
    (h : isImageName n = false) :
    (copyDir (.file n :: rest)).2 = (copyDir rest).2 := by
  simp [copyDir, h]

/-- Destination tree of `copyDir` on a directory entry. -/
theorem copyDir_fst_dir (n : List Char) (ch rest : List FSTree) :
    (copyDir (.dir n ch :: rest)).1 = .dir n (copyDir ch).1 :: (copyDir rest).1 := by
  simp [copyDir]

/-- Count of `copyDir` on a directory entry. -/
theorem copyDir_snd_dir (n : List Char) (ch rest : List FSTree) :
    (copyDir (.dir n ch :: rest)).2 = (copyDir ch).2 + (copyDir rest).2 := by
  simp [copyDir]

/-- Path lookup past a file entry when the path names a single component. -/
theorem hasFile_single_file (n m : List Char) (ts : List FSTree) :
    hasFile [n] (.file m :: ts) = (decide (m = n) || hasFile [n] ts) := by
  simp [hasFile, List.any_cons]

/-- Path lookup past a directory entry when the path has one component. -/
theorem hasFile_single_dir (n m : List Char) (ch : List FSTree) (ts : List FSTree) :
    hasFile [n] (.dir m ch :: ts) = hasFile [n] ts := by
  simp [hasFile, List.any_cons]

/-- Path lookup past a file entry when the path has several components. -/
theorem hasFile_long_file (n q : List Char) (p : List (List Char)) (m : List Char)
    (ts : List FSTree) :
    hasFile (n :: q :: p) (.file m :: ts) = hasFile (n :: q :: p) ts := by
  simp [hasFile, List.any_cons]

/-- Path lookup past a directory entry when the path has several components. -/
theorem hasFile_long_dir (n q : List Char) (p : List (List Char)) (m : List Char)
    (ch ts : List FSTree) :
    hasFile (n :: q :: p) (.dir m ch :: ts) =
      ((decide (m = n) && hasFile (q :: p) ch) || hasFile (n :: q :: p) ts) := by
  simp [hasFile, List.any_cons]

/-- Path lookup in an empty entry list. -/
theorem hasFile_nil_entries (path : List (List Char)) : hasFile path [] = false := by
  cases path <;> simp [hasFile]

/-- Mirrored-tree membership: a file is present at a path of the destination
tree exactly when it is present in the source and its name passes the image
filter. -/
theorem copyDir_hasFile (src : List FSTree) :
    ∀ p n, hasFile (p ++ [n]) (copyDir src).1 =
      (hasFile (p ++ [n]) src && isImageName n) := by
  induction src using copyDir.induct with
  | case1 =>
      intro p n
      simp [copyDir, hasFile_nil_entries]
  | case2 nm rest h ih =>
      intro p n
      cases p with
      | nil =>
          have iH := ih [] n
          rw [List.nil_append] at iH ⊢
          rw [copyDir_fst_file_pos nm rest h, hasFile_single_file, hasFile_single_file, iH]
          by_cases hmn : nm = n
          · subst hmn
            simp [h]
          · simp [hmn]
      | cons q p' =>
          cases p' with
          | nil =>
              have iH := ih [q] n
              simp only [List.cons_append, List.nil_append] at iH ⊢
              rw [copyDir_fst_file_pos nm rest h, hasFile_long_file, hasFile_long_file, iH]
          | cons q2 p'' =>
              have iH := ih (q :: q2 :: p'') n
              simp only [List.cons_append] at iH ⊢
              rw [copyDir_fst_file_pos nm rest h, hasFile_long_file, hasFile_long_file, iH]
  | case3 nm rest h ih =>
      intro p n
      have h' : isImageName nm = false := by
        cases hb : isImageName nm
        · rfl
        · exact absurd hb h
      cases p with
      | nil =>
          have iH := ih [] n
          rw [List.nil_append] at iH ⊢
          rw [copyDir_fst_file_neg nm rest h', hasFile_single_file, iH]
          by_cases hmn : nm = n
          · subst hmn
            simp [h']
          · simp [hmn]
      | cons q p' =>
          cases p' with
          | nil =>
              have iH := ih [q] n
              simp only [List.cons_append, List.nil_append] at iH ⊢
              rw [copyDir_fst_file_neg nm rest h', hasFile_long_file, iH]
          | cons q2 p'' =>
              have iH := ih (q :: q2 :: p'') n
              simp only [List.cons_append] at iH ⊢
              rw [copyDir_fst_file_neg nm rest h', hasFile_long_file, iH]
  | case4 nm ch rest ih1 ih2 =>
      intro p n
      cases p with
      | nil =>
          have iH2 := ih2 [] n
          rw [List.nil_append] at iH2 ⊢
          rw [copyDir_fst_dir, hasFile_single_dir, hasFile_single_dir, iH2]
      | cons q p' =>
          cases p' with
          | nil =>
              have iH1 := ih1 [] n
              have iH2 := ih2 [q] n
              simp only [List.cons_append, List.nil_append] at iH1 iH2 ⊢
              rw [copyDir_fst_dir, hasFile_long_dir, hasFile_long_dir, iH1, iH2]
              cases isImageName n <;> simp
          | cons q2 p'' =>
              have iH1 := ih1 (q2 :: p'') n
              have iH2 := ih2 (q :: q2 :: p'') n
              simp only [List.cons_append] at iH1 iH2 ⊢
              rw [copyDir_fst_dir, hasFile_long_dir, hasFile_long_dir, iH1, iH2]
              cases isImageName n <;> simp

/-- The count `copyDir` returns equals the number of files of the
destination tree it builds, summed over all subdirectories. -/
theorem copyDir_count (src : List FSTree) :
    (copyDir src).2 = countFiles (copyDir src).1 := by
  induction src using copyDir.induct with
  | case1 => simp [copyDir, countFiles]
  | case2 nm rest h ih =>
      rw [copyDir_snd_file_pos nm rest h, copyDir_fst_file_pos nm rest h, countFiles, ih]
  | case3 nm rest h ih =>
      have h' : isImageName nm = false := by
        cases hb : isImageName nm
        · rfl
        · exact absurd hb h
      rw [copyDir_snd_file_neg nm rest h', copyDir_fst_file_neg nm rest h', ih]
  | case4 nm ch rest ih1 ih2 =>
      rw [copyDir_snd_dir, copyDir_fst_dir, countFiles, ih1, ih2]

/-- C9: asset filtering.  A file reaches the mirrored destination path
exactly when it is present in the source tree and its lower-cased name ends
with one of the allowed image extensions (jpg, jpeg, png, gif, webp, svg);
non-matching files are skipped, and the returned count equals the number of
files actually present in the destination tree, summed recursively. -/
theorem syncAssets_filter_count (src : List FSTree) :
    (∀ p n, hasFile (p ++ [n]) (copyDir src).1 =
      (hasFile (p ++ [n]) src && isImageName n)) ∧
    (copyDir src).2 = countFiles (copyDir src).1 :=
  ⟨copyDir_hasFile src, copyDir_count src⟩

/-- Helper: takeWhile and dropWhile on a list that starts with a run of
satisfying elements followed by a failing head. -/
theorem takeWhile_dropWhile_append {α : Type} (p : α → Bool) (ds t : List α)
    (h : ∀ c ∈ ds, p c = true) (h2 : ∀ c, t.head? = some c → p c = false) :
    (ds ++ t).takeWhile p = ds ∧ (ds ++ t).dropWhile p = t := by
  induction ds with
  | nil =>
      cases t with
      | nil => simp
      | cons c t' =>
          have hc := h2 c rfl
          simp [List.takeWhile_cons, List.dropWhile_cons, hc]
  | cons d ds' ih =>
      have hd := h d (by simp)
      have ih' := ih fun c hc => h c (by simp [hc])
      simp [List.takeWhile_cons, List.dropWhile_cons, hd, ih'.1, ih'.2]

/-- Helper: a failed head match at every position makes the order-regexp
search fail. -/
theorem chapFind_eq_none (f : List Char)
    (h : ∀ i, chapHeadMatch (f.drop i) = false) : chapFind f = none := by
  induction f with
  | nil => rfl
  | cons c rest ih =>
      have h0 := h 0
      rw [List.drop_zero] at h0
      rw [chapFind, if_neg (by simp [h0])]
      exact ih fun i => by simpa using h (i + 1)

/-- C2 (amended): order-key determinism.  For every conforming filename
`Chap_<digits>[-<letter>]_...` the computed order equals the digits' value
times ten plus the letter's alphabet position (A = 1, ..., with 0 when the
letter is absent).  The sentinel 999 is produced exactly when no position of
the filename carries `Chap_` followed by a digit — a filename violating the
naming convention that still contains such a substring receives the order
computed from that substring, not 999. -/
theorem getChapterOrder_amended (d : Char) (ds tl : List Char)
    (hd : d.isDigit = true) (hds : ∀ c ∈ ds, c.isDigit = true) :
    getChapterOrder ('C' :: 'h' :: 'a' :: 'p' :: '_' :: ((d :: ds) ++ ('_' :: tl))) =
      digitsVal (d :: ds) * 10 ∧
    (∀ L : Char, L.isUpper = true →
      getChapterOrder ('C' :: 'h' :: 'a' :: 'p' :: '_' :: ((d :: ds) ++ ('-' :: L :: '_' :: tl))) =
        digitsVal (d :: ds) * 10 + (L.toNat - 64)) ∧
    (∀ f : List Char, (∀ i, chapHeadMatch (f.drop i) = false) →
      getChapterOrder f = 999) := by
  have hall : ∀ c ∈ d :: ds, c.isDigit = true := by
    intro c hc
    rcases List.mem_cons.mp hc with hc | hc
    · subst hc; exact hd
    · exact hds c hc
  refine ⟨?_, ?_, ?_⟩
  · have htw := takeWhile_dropWhile_append Char.isDigit (d :: ds) ('_' :: tl) hall
      (by intro c hc; simp at hc; subst hc; decide)
    have hmatch : chapHeadMatch
        ('C' :: 'h' :: 'a' :: 'p' :: '_' :: ((d :: ds) ++ ('_' :: tl))) = true := by
      unfold chapHeadMatch
      rw [show List.take 5 ('C' :: 'h' :: 'a' :: 'p' :: '_' :: ((d :: ds) ++ ('_' :: tl)))
            = "Chap_".toList from rfl]
      rw [show List.drop 5 ('C' :: 'h' :: 'a' :: 'p' :: '_' :: ((d :: ds) ++ ('_' :: tl)))
            = d :: (ds ++ ('_' :: tl)) from rfl]
      simp [hd]
    have hfind : chapFind ('C' :: 'h' :: 'a' :: 'p' :: '_' :: ((d :: ds) ++ ('_' :: tl)))
        = some (digitsVal (d :: ds), 0) := by
      rw [chapFind, if_pos hmatch]
      simp only [chapParseAt]
      rw [show List.drop 5 ('C' :: 'h' :: 'a' :: 'p' :: '_' :: ((d :: ds) ++ ('_' :: tl)))
            = (d :: ds) ++ ('_' :: tl) from rfl]
      rw [htw.1, htw.2]
      rfl
    rw [getChapterOrder, hfind]
    rfl
  · intro L hL
    have htw := takeWhile_dropWhile_append Char.isDigit (d :: ds) ('-' :: L :: '_' :: tl) hall
      (by intro c hc; simp at hc; subst hc; decide)
    have hmatch : chapHeadMatch
        ('C' :: 'h' :: 'a' :: 'p' :: '_' :: ((d :: ds) ++ ('-' :: L :: '_' :: tl))) = true := by
      unfold chapHeadMatch
      rw [show List.take 5 ('C' :: 'h' :: 'a' :: 'p' :: '_' :: ((d :: ds) ++ ('-' :: L :: '_' :: tl)))
            = "Chap_".toList from rfl]
      rw [show List.drop 5 ('C' :: 'h' :: 'a' :: 'p' :: '_' :: ((d :: ds) ++ ('-' :: L :: '_' :: tl)))
            = d :: (ds ++ ('-' :: L :: '_' :: tl)) from rfl]
      simp [hd]
    have hfind : chapFind
        ('C' :: 'h' :: 'a' :: 'p' :: '_' :: ((d :: ds) ++ ('-' :: L :: '_' :: tl)))
        = some (digitsVal (d :: ds), L.toNat - 64) := by
      rw [chapFind, if_pos hmatch]
      simp only [chapParseAt]
      rw [show List.drop 5 ('C' :: 'h' :: 'a' :: 'p' :: '_' :: ((d :: ds) ++ ('-' :: L :: '_' :: tl)))
            = (d :: ds) ++ ('-' :: L :: '_' :: tl) from rfl]
      rw [htw.1, htw.2]
      simp [hL]
    rw [getChapterOrder, hfind]
  · intro f hf
    rw [getChapterOrder, chapFind_eq_none f hf]

/-- C2 (counterexample): `Chap_12Title.md` violates the naming convention
`Chap_<N>[-<L>]_...` (no underscore follows the chapter number), yet the
unanchored search regexp still matches its `Chap_12` prefix, so the computed
order is 120 and not the sentinel 999 the claim requires for every
non-conforming filename. -/
theorem c2_counterexample :
    getChapterOrder "Chap_12Title.md".toList = 120 ∧ (120 : Nat) ≠ 999 := by
  refine ⟨by decide, by decide⟩

/-- C2 (witness): the amended theorem applied to `Chap_12_AB_Title.md` and
`Chap_12-B_AB_Title.md`, giving orders 120 and 122, and to a filename with
no `Chap_`-digit substring at any position, giving 999. -/
theorem getChapterOrder_amended_witness :
    getChapterOrder "Chap_12_AB_Title.md".toList = 120 ∧
    getChapterOrder "Chap_12-B_AB_Title.md".toList = 122 ∧
    getChapterOrder "Intro.md".toList = 999 := by
  have h := getChapterOrder_amended '1' ['2'] "AB_Title.md".toList (by decide)
    (by intro c hc; simp at hc; subst hc; decide)
  refine ⟨?_, ?_, ?_⟩
  · exact h.1.trans (by decide)
  · exact (h.2.1 'B' (by decide)).trans (by decide)
  · refine h.2.2 "Intro.md".toList ?_
    intro i
    have hi : i < 8 ∨ 8 ≤ i := by omega
    rcases hi with hi | hi
    · interval_cases i <;> decide
    · rw [List.drop_eq_nil_of_le (by simpa using hi)]
      decide

/-- Scanner deciding that no run of four or more consecutive newlines occurs;
the accumulator counts the newlines of the current run. -/
def okAux : Nat → List Char → Bool
  | _, [] => true
  | n, c :: rest =>
    if c = '\n' then decide (n + 1 < 4) && okAux (n + 1) rest else okAux 0 rest

/-- No-quad-newline test of a character list. -/
def noNlRun4 (l : List Char) : Bool := okAux 0 l

/-- One step of the no-quad-newline scanner. -/
theorem okAux_cons (n : Nat) (c : Char) (rest : List Char) :
    okAux n (c :: rest) =
      if c = '\n' then decide (n + 1 < 4) && okAux (n + 1) rest
      else okAux 0 rest := by
  rw [okAux]

/-- The scanner is antitone in its pending-run accumulator. -/
theorem okAux_mono (l : List Char) :
    ∀ m m', m ≤ m' → okAux m' l = true → okAux m l = true := by
  induction l with
  | nil => intro m m' _ _; rfl
  | cons c rest ih =>
      intro m m' hle h
      by_cases hc : c = '\n'
      · subst hc
        rw [okAux_cons, if_pos rfl] at h ⊢
        rw [Bool.and_eq_true] at h ⊢
        refine ⟨?_, ih (m + 1) (m' + 1) (by omega) h.2⟩
        have := of_decide_eq_true h.1
        exact decide_eq_true (by omega)
      · rw [okAux_cons, if_neg hc] at h ⊢
        exact h

/-- The scanner accepts the replacement of a newline run followed by a
non-newline character whenever it accepts the continuation. -/
theorem okAux_emitNl_cons (n : Nat) (c : Char) (T : List Char) (hc : ¬ c = '\n') :
    okAux 0 (emitNl n ++ c :: T) = okAux 0 T := by
  have hk : min n 3 ≤ 3 := Nat.min_le_right n 3
  unfold emitNl
  interval_cases h : min n 3 <;> simp [okAux, hc]

/-- The scanner accepts an emitted run on its own. -/
theorem okAux_emitNl (n : Nat) : okAux 0 (emitNl n) = true := by
  have hk : min n 3 ≤ 3 := Nat.min_le_right n 3
  unfold emitNl
  interval_cases h : min n 3 <;> simp [okAux]

/-- The collapse scanner never outputs four consecutive newlines. -/
theorem collapseAux_ok (l : List Char) : ∀ n, okAux 0 (collapseAux n l) = true := by
  induction l with
  | nil => intro n; rw [collapseAux]; exact okAux_emitNl n
  | cons c rest ih =>
      intro n
      by_cases hc : c = '\n'
      · subst hc
        rw [collapseAux, if_pos rfl]
        exact ih (n + 1)
      · rw [collapseAux, if_neg hc, okAux_emitNl_cons n c _ hc]
        exact ih 0

/-- Evaluation of the front-matter scanner on a matched pattern. -/
theorem fmAux_eq_pat (sk : Bool) (rest : List Char) :
    fmAux sk ('-' :: '-' :: '-' :: '\n' :: '\n' :: rest) =
      '-' :: '-' :: '-' :: '\n' :: '\n' :: fmAux true rest := by
  simp [fmAux]

/-- Evaluation of the front-matter scanner away from the pattern. -/
theorem fmAux_eq_cons (sk : Bool) (c : Char) (rest : List Char)
    (hno : ¬ (c :: rest).take 5 = fmPat) :
    fmAux sk (c :: rest) =
      if sk && decide (c = '\n') then fmAux true rest
      else c :: fmAux false rest := by
  rw [fmAux.eq_def]
  split
  · rename_i heq
    exact absurd heq (by simp)
  · rename_i heq
    injection heq with h1 h2
    subst h1
    rw [h2] at hno
    exact absurd rfl hno
  · rename_i heq
    injection heq with h1 h2
    subst h1
    subst h2
    rfl

/-- The front-matter blank-line fix only deletes newline characters, so it
preserves the absence of quadruple-newline runs, at any pending-run count. -/
theorem fmAux_ok (sk : Bool) (l : List Char) :
    ∀ n, okAux n l = true → okAux n (fmAux sk l) = true := by
  induction sk, l using fmAux.induct with
  | case1 x =>
      intro n h
      simpa [fmAux] using h
  | case2 x rest ih =>
      intro n h
      rw [fmAux_eq_pat]
      simp only [okAux_cons] at h ⊢
      simp at h ⊢
      exact ih 2 h
  | case3 sk c rest hno hsk ih =>
      intro n h
      have hsk2 := hsk
      rw [Bool.and_eq_true] at hsk2
      have hc : c = '\n' := of_decide_eq_true hsk2.2
      have hno' : ¬ (c :: rest).take 5 = fmPat := by
        subst hc
        intro hx
        rw [List.take_succ_cons] at hx
        exact absurd (List.head_eq_of_cons_eq hx) (by decide)
      rw [fmAux_eq_cons sk c rest hno', if_pos hsk]
      subst hc
      rw [okAux_cons, if_pos rfl, Bool.and_eq_true] at h
      exact okAux_mono _ n (n + 1) (Nat.le_succ n) (ih (n + 1) h.2)
  | case4 sk c rest hno hsk ih =>
      intro n h
      have hno' : ¬ (c :: rest).take 5 = fmPat := by
        intro hx
        rw [List.take_succ_cons] at hx
        have hfm : fmPat = '-' :: '-' :: '-' :: '\n' :: '\n' :: ([] : List Char) := rfl
        rw [hfm] at hx
        injection hx with h1 h2
        have hr : rest = '-' :: '-' :: '\n' :: '\n' :: rest.drop 4 := by
          conv_lhs => rw [← List.take_append_drop 4 rest]
          rw [h2]
          rfl
        exact hno (rest.drop 4) h1 hr
      rw [fmAux_eq_cons sk c rest hno', if_neg hsk]
      by_cases hc : c = '\n'
      · subst hc
        rw [okAux_cons, if_pos rfl, Bool.and_eq_true] at h ⊢
        exact ⟨h.1, ih (n + 1) h.2⟩
      · rw [okAux_cons, if_neg hc] at h ⊢
        exact ih 0 h

/-- A list containing four consecutive newlines is rejected by the scanner
from any accumulator value. -/
theorem okAux_append_run4 (s t : List Char) :
    ∀ n, okAux n (s ++ '\n' :: '\n' :: '\n' :: '\n' :: t) = false := by
  induction s with
  | nil =>
      intro n
      simp only [List.nil_append, okAux_cons, if_pos rfl]
      have h4 : decide (n + 1 + 1 + 1 + 1 < 4) = false := by simp
      simp [h4]
  | cons c s' ih =>
      intro n
      by_cases hc : c = '\n'
      · subst hc
        rw [List.cons_append, okAux_cons, if_pos rfl, ih (n + 1)]
        simp
      · rw [List.cons_append, okAux_cons, if_neg hc]
        exact ih 0

/-- Evaluation of the collapse scanner on a pure newline run. -/
theorem collapseAux_replicate (m : Nat) :
    ∀ k, collapseAux k (List.replicate m '\n') = emitNl (k + m) := by
  induction m with
  | zero => intro k; rfl
  | succ m ih =>
      intro k
      rw [List.replicate_succ, collapseAux, if_pos rfl, ih (k + 1)]
      congr 1
      omega

/-- C4 (amended): blank-line collapse.  The cleaner's output never contains
a run of four or more consecutive newline characters (stated both through
the run scanner and as the absence of a four-newline infix), and the collapse
step maps a newline run of length n to a run of length min n 3 — so runs of
four or more become exactly three, while runs of at most three (in
particular, of exactly three) are left unchanged rather than collapsed to
two. -/
theorem cleanChapter_no_quad_newline :
    (∀ s, noNlRun4 (cleanChapter s) = true) ∧
    (∀ s, ¬ (['\n', '\n', '\n', '\n'] <:+: cleanChapter s)) ∧
    (∀ n, collapseNewlines (List.replicate n '\n') =
      List.replicate (min n 3) '\n') := by
  have hok : ∀ s, noNlRun4 (cleanChapter s) = true := by
    intro s
    unfold cleanChapter fixFrontmatterBlanks collapseNewlines noNlRun4
    exact fmAux_ok false _ 0 (collapseAux_ok _ 0)
  refine ⟨hok, ?_, ?_⟩
  · intro s h
    obtain ⟨u, v, huv⟩ := h
    have hf := okAux_append_run4 u v 0
    rw [show u ++ '\n' :: '\n' :: '\n' :: '\n' :: v
          = u ++ ['\n', '\n', '\n', '\n'] ++ v by simp] at hf
    rw [huv] at hf
    have ht := hok s
    rw [noNlRun4] at ht
    rw [ht] at hf
    simp at hf
  · intro n
    unfold collapseNewlines
    rw [collapseAux_replicate n 0, Nat.zero_add]
    rfl

/-- C4 (witness): the amended theorem at a concrete content with a
five-newline run, and the collapse of a seven-newline run to three. -/
theorem cleanChapter_no_quad_newline_witness :
    noNlRun4 (cleanChapter "x\n\n\n\n\ny".toList) = true ∧
    ¬ (['\n', '\n', '\n', '\n'] <:+: cleanChapter "x\n\n\n\n\ny".toList) ∧
    collapseNewlines (List.replicate 7 '\n') = List.replicate 3 '\n' := by
  refine ⟨cleanChapter_no_quad_newline.1 _, cleanChapter_no_quad_newline.2.1 _, ?_⟩
  exact (cleanChapter_no_quad_newline.2.2 7).trans (by decide)

/-- Elements of a takeWhile all satisfy the predicate. -/
theorem mem_takeWhile_pred {α : Type} (p : α → Bool) (l : List α) :
    ∀ c ∈ l.takeWhile p, p c = true := by
  induction l with
  | nil => simp
  | cons x xs ih =>
      intro c hc
      rw [List.takeWhile_cons] at hc
      by_cases hx : p x = true
      · rw [if_pos hx] at hc
        rcases List.mem_cons.mp hc with h | h
        · subst h; exact hx
        · exact ih c h
      · rw [if_neg hx] at hc
        simp at hc

/-- The word-boundary truncation leaves a whitespace-free input unchanged
(the regexp `\s+\S*$` fails without whitespace). -/
theorem dropLastPartialWord_no_ws (p : List Char) (h : ∀ c ∈ p, isJsWs c = false) :
    dropLastPartialWord p = p := by
  have hr : p.reverse.dropWhile (fun c => ¬ isJsWs c) = [] := by
    rw [List.dropWhile_eq_nil_iff]
    intro x hx
    have hxw := h x (List.mem_reverse.mp hx)
    simp [hxw]
  simp only [dropLastPartialWord]
  rw [hr]

/-- Decomposition of the word-boundary truncation on an input containing
whitespace: the input splits into the kept part, a nonempty final
whitespace run, and a whitespace-free trailing partial word; the kept part
ends with a non-whitespace character and is no longer than the input. -/
theorem dropLastPartialWord_ws (p : List Char) (h : p.any isJsWs = true) :
    ∃ ws tl, p = dropLastPartialWord p ++ ws ++ tl ∧ ws ≠ [] ∧
      (∀ c ∈ ws, isJsWs c = true) ∧ (∀ c ∈ tl, isJsWs c = false) ∧
      (∀ c, (dropLastPartialWord p).getLast? = some c → isJsWs c = false) ∧
      (dropLastPartialWord p).length ≤ p.length := by
  have hr1 : p.reverse.dropWhile (fun c => ¬ isJsWs c) ≠ [] := by
    intro h0
    rw [List.dropWhile_eq_nil_iff] at h0
    rcases List.any_eq_true.mp h with ⟨x, hx, hxw⟩
    have hx0 := h0 x (List.mem_reverse.mpr hx)
    simp [hxw] at hx0
  obtain ⟨x, xs, hxs⟩ := List.exists_cons_of_ne_nil hr1
  have hdlp : dropLastPartialWord p =
      ((p.reverse.dropWhile (fun c => ¬ isJsWs c)).dropWhile isJsWs).reverse := by
    simp only [dropLastPartialWord]
    rw [hxs]
  have hheadx : isJsWs x = true := by
    have hx' := List.head?_dropWhile_not (fun c => ¬ isJsWs c) p.reverse
    rw [hxs] at hx'
    simpa using hx'
  refine ⟨((p.reverse.dropWhile (fun c => ¬ isJsWs c)).takeWhile isJsWs).reverse,
    (p.reverse.takeWhile (fun c => ¬ isJsWs c)).reverse, ?_, ?_, ?_, ?_, ?_, ?_⟩
  · rw [hdlp]
    conv_lhs => rw [← List.reverse_reverse p]
    conv_lhs =>
      rw [← List.takeWhile_append_dropWhile (p := fun c => ¬ isJsWs c) (l := p.reverse)]
      rw [← List.takeWhile_append_dropWhile (p := isJsWs)
        (l := p.reverse.dropWhile (fun c => ¬ isJsWs c))]
    rw [List.reverse_append, List.reverse_append]
  · rw [hxs, List.takeWhile_cons, if_pos hheadx]
    simp
  · intro c hc
    exact mem_takeWhile_pred isJsWs _ c (List.mem_reverse.mp hc)
  · intro c hc
    have := mem_takeWhile_pred (fun c => ¬ isJsWs c) p.reverse c (List.mem_reverse.mp hc)
    simpa using this
  · intro c hc
    rw [hdlp, List.getLast?_reverse] at hc
    have hx' := List.head?_dropWhile_not isJsWs (p.reverse.dropWhile (fun c => ¬ isJsWs c))
    rw [hc] at hx'
    exact hx'
  · rw [hdlp, List.length_reverse]
    calc ((p.reverse.dropWhile (fun c => ¬ isJsWs c)).dropWhile isJsWs).length
        ≤ (p.reverse.dropWhile (fun c => ¬ isJsWs c)).length :=
          (List.dropWhile_sublist isJsWs).length_le
      _ ≤ p.reverse.length := (List.dropWhile_sublist _).length_le
      _ = p.length := List.length_reverse p

/-- C6 (amended): excerpt truncation.  A body whose stripped plain text fits
in 500 characters is returned as that plain text, without an ellipsis.  A
longer body yields an excerpt of at most 503 characters ending in `...`,
whose part before the ellipsis is obtained from the 500-character prefix of
the plain text as follows: when that prefix contains whitespace, the final
whitespace run and the partial word after it are removed, so the kept part
ends on a complete word (its last character is not whitespace and it is
followed by whitespace in the prefix — the last whitespace boundary at or
before position 500); when the prefix contains no whitespace at all, the
whole 500-character prefix is kept, a mid-word cut. -/
theorem createExcerpt_amended (body : List Char) :
    ((plainTextOf body).length ≤ 500 → createExcerpt body = plainTextOf body) ∧
    (500 < (plainTextOf body).length →
      (createExcerpt body).length ≤ 503 ∧
      (createExcerpt body).drop ((createExcerpt body).length - 3) = "...".toList ∧
      ∃ w rest, createExcerpt body = w ++ "...".toList ∧
        (plainTextOf body).take 500 = w ++ rest ∧ w.length ≤ 500 ∧
        ((rest = [] ∧ ∀ c ∈ w, isJsWs c = false) ∨
         (∃ ws tl, rest = ws ++ tl ∧ ws ≠ [] ∧ (∀ c ∈ ws, isJsWs c = true) ∧
           (∀ c ∈ tl, isJsWs c = false) ∧
           ∀ c, w.getLast? = some c → isJsWs c = false))) := by
  constructor
  · intro hle
    simp only [createExcerpt]
    rw [if_pos hle]
  · intro hgt
    have hne : ¬ (plainTextOf body).length ≤ 500 := by omega
    have hex : createExcerpt body =
        dropLastPartialWord ((plainTextOf body).take 500) ++ "...".toList := by
      simp only [createExcerpt]
      rw [if_neg hne]
    have hqlen : ((plainTextOf body).take 500).length ≤ 500 :=
      List.length_take_le 500 _
    have hdots : ("...".toList : List Char).length = 3 := rfl
    by_cases hws : ((plainTextOf body).take 500).any isJsWs = true
    · obtain ⟨ws, tl, hsplit, hwsne, hwsall, htlall, hlast, hlen⟩ :=
        dropLastPartialWord_ws _ hws
      have hdl : (dropLastPartialWord ((plainTextOf body).take 500)).length ≤ 500 :=
        le_trans hlen hqlen
      refine ⟨?_, ?_, dropLastPartialWord ((plainTextOf body).take 500), ws ++ tl,
        hex, ?_, hdl, ?_⟩
      · rw [hex, List.length_append, hdots]
        omega
      · rw [hex, List.length_append, hdots]
        have h3 : (dropLastPartialWord ((plainTextOf body).take 500)).length + 3 - 3 =
            (dropLastPartialWord ((plainTextOf body).take 500)).length := by omega
        rw [h3]
        exact List.drop_left _ _
      · rw [List.append_assoc] at hsplit
        exact hsplit
      · exact Or.inr ⟨ws, tl, rfl, hwsne, hwsall, htlall, hlast⟩
    · have hall : ∀ c ∈ (plainTextOf body).take 500, isJsWs c = false := by
        intro c hc
        rcases Bool.eq_false_or_eq_true (isJsWs c) with h0 | h0
        · exact absurd (List.any_eq_true.mpr ⟨c, hc, h0⟩) hws
        · exact h0
      have hdl := dropLastPartialWord_no_ws _ hall
      refine ⟨?_, ?_, (plainTextOf body).take 500, [], ?_, by simp, hqlen,
        Or.inl ⟨rfl, hall⟩⟩
      · rw [hex, hdl, List.length_append, hdots]
        omega
      · rw [hex, hdl, List.length_append, hdots]
        have h3 : ((plainTextOf body).take 500).length + 3 - 3 =
            ((plainTextOf body).take 500).length := by omega
        rw [h3]
        exact List.drop_left _ _
      · rw [hex, hdl]

/-- C6 (witness): the amended theorem applied to a short body (returned as
its plain text, no ellipsis) and to a 600-character body of 100-character
words (599 plain-text characters after the trailing space is trimmed),
whose excerpt stays within 503 characters and ends in the ellipsis. -/
theorem createExcerpt_amended_witness :
    createExcerpt "A short body.".toList = plainTextOf "A short body.".toList ∧
    (createExcerpt (List.flatten
      (List.replicate 6 (List.replicate 99 'b' ++ [' '])))).length ≤ 503 ∧
    (createExcerpt (List.flatten
        (List.replicate 6 (List.replicate 99 'b' ++ [' '])))).drop
      ((createExcerpt (List.flatten
        (List.replicate 6 (List.replicate 99 'b' ++ [' '])))).length - 3) =
      "...".toList := by
  refine ⟨(createExcerpt_amended _).1 (by decide), ?_, ?_⟩
  · exact ((createExcerpt_amended _).2 (by decide)).1
  · exact ((createExcerpt_amended _).2 (by decide)).2.1

/-- Characters differ when their code points do. -/
theorem char_ne_of_toNat_ne {c d : Char} (h : c.toNat ≠ d.toNat) : c ≠ d :=
  fun hc => h (congrArg Char.toNat hc)

/-- A line split never contains a newline. -/
theorem mem_linesOf_no_nl (l : List Char) :
    ∀ L ∈ linesOf l, ∀ c ∈ L, ¬ c = '\n' := by
  induction l with
  | nil =>
      intro L hL c hc
      simp [linesOf] at hL
      subst hL
      simp at hc
  | cons x xs ih =>
      intro L hL c hc
      by_cases hx : x = '\n'
      · subst hx
        rw [linesOf, if_pos rfl] at hL
        rcases List.mem_cons.mp hL with h | h
        · subst h; simp at hc
        · exact ih L h c hc
      · rw [linesOf, if_neg hx] at hL
        rcases hmatch : linesOf xs with _ | ⟨l0, ls⟩
        · rw [hmatch] at hL
          simp at hL
          subst hL
          rcases List.mem_cons.mp hc with h | h
          · subst h; exact hx
          · simp at h
        · rw [hmatch] at hL
          rcases List.mem_cons.mp hL with h | h
          · subst h
            rcases List.mem_cons.mp hc with h' | h'
            · subst h'; exact hx
            · exact ih l0 (by rw [hmatch]; exact List.mem_cons_self l0 ls) c h'
          · exact ih L (by rw [hmatch]; exact List.mem_cons_of_mem l0 h) c hc

/-- The line split of a newline-free list is that single line. -/
theorem linesOf_no_nl (L : List Char) (h : ∀ c ∈ L, ¬ c = '\n') :
    linesOf L = [L] := by
  induction L with
  | nil => rfl
  | cons c rest ih =>
      have hc : ¬ c = '\n' := h c (List.mem_cons_self c rest)
      rw [linesOf, if_neg hc, ih fun x hx => h x (List.mem_cons_of_mem c hx)]

/-- The line split before an explicit newline separator. -/
theorem linesOf_append_cons (L rest : List Char) (h : ∀ c ∈ L, ¬ c = '\n') :
    linesOf (L ++ '\n' :: rest) = L :: linesOf rest := by
  induction L with
  | nil =>
      rw [List.nil_append, linesOf, if_pos rfl]
  | cons c L' ih =>
      have hc : ¬ c = '\n' := h c (List.mem_cons_self c L')
      rw [List.cons_append, linesOf, if_neg hc,
        ih fun x hx => h x (List.mem_cons_of_mem c hx)]

/-- Lines recombine to the joined list. -/
theorem linesOf_joinLines (Ls : List (List Char)) (hne : Ls ≠ [])
    (h : ∀ L ∈ Ls, ∀ c ∈ L, ¬ c = '\n') : linesOf (joinLines Ls) = Ls := by
  induction Ls with
  | nil => exact absurd rfl hne
  | cons L Ls' ih =>
      cases Ls' with
      | nil =>
          rw [joinLines]
          exact linesOf_no_nl L (h L (List.mem_cons_self L []))
      | cons L2 Ls'' =>
          rw [joinLines, linesOf_append_cons L _ (h L (List.mem_cons_self L _)),
            ih (List.cons_ne_nil L2 Ls'') fun M hM c hc => h M (List.mem_cons_of_mem L hM) c hc]
          intro h0
          exact List.noConfusion h0

/-- Trimming only removes characters. -/
theorem mem_jsTrim_subset (l : List Char) : ∀ c ∈ jsTrim l, c ∈ l := by
  intro c hc
  unfold jsTrim at hc
  rw [List.mem_reverse] at hc
  have h1 := List.dropWhile_subset (l := (l.dropWhile isJsWs).reverse) isJsWs hc
  rw [List.mem_reverse] at h1
  exact List.dropWhile_subset isJsWs h1

/-- Quote stripping only removes characters (leading step). -/
theorem mem_stripLeadQuote_subset (l : List Char) : ∀ c ∈ stripLeadQuote l, c ∈ l := by
  intro c hc
  cases l with
  | nil => simp [stripLeadQuote] at hc
  | cons x r =>
      rw [stripLeadQuote] at hc
      by_cases hx : isQuoteCh x = true
      · rw [if_pos hx] at hc
        exact List.mem_cons_of_mem x hc
      · rw [if_neg hx] at hc
        exact hc

/-- Quote stripping only removes characters (trailing step). -/
theorem mem_stripTrailQuote_subset (l : List Char) : ∀ c ∈ stripTrailQuote l, c ∈ l := by
  intro c hc
  unfold stripTrailQuote at hc
  split at hc
  · rename_i y yr hrev
    by_cases hy : isQuoteCh y = true
    · rw [if_pos hy] at hc
      rw [List.mem_reverse] at hc
      have hmem : c ∈ l.reverse := by
        rw [hrev]
        exact List.mem_cons_of_mem y hc
      exact List.mem_reverse.mp hmem
    · rw [if_neg hy] at hc
      exact hc
  · exact hc

/-- Quote stripping only removes characters. -/
theorem mem_stripQuotes_subset (l : List Char) : ∀ c ∈ stripQuotes l, c ∈ l :=
  fun c hc => mem_stripLeadQuote_subset l c (mem_stripTrailQuote_subset _ c hc)

/-- The pieces of a colon split are parts of the line. -/
theorem colonSplit_subset (l : List Char) :
    ∀ k v, colonSplit l = some (k, v) → (∀ c ∈ k, c ∈ l) ∧ (∀ c ∈ v, c ∈ l) := by
  induction l with
  | nil => intro k v h; simp [colonSplit] at h
  | cons x r ih =>
      intro k v h
      rw [colonSplit] at h
      by_cases hx : x = ':'
      · rw [if_pos hx] at h
        injection h with h'
        injection h' with h1 h2
        subst h1; subst h2
        exact ⟨by simp, fun c hc => List.mem_cons_of_mem x hc⟩
      · rw [if_neg hx] at h
        rcases hrec : colonSplit r with _ | ⟨k', v'⟩
        · rw [hrec] at h; exact absurd h (by simp)
        · rw [hrec] at h
          injection h with h'
          injection h' with h1 h2
          obtain ⟨hk, hv⟩ := ih k' v' hrec
          subst h1
          constructor
          · intro c hc
            rcases List.mem_cons.mp hc with h0 | h0
            · rw [h0]; exact List.mem_cons_self x r
            · exact List.mem_cons_of_mem x (hk c h0)
          · intro c hc
            rw [← h2] at hc
            exact List.mem_cons_of_mem x (hv c hc)

/-- Digit characters are not whitespace, quotes, newlines or dashes. -/
theorem digit_char_flags (c : Char) (h1 : 48 ≤ c.toNat) (h2 : c.toNat ≤ 57) :
    isJsWs c = false ∧ isQuoteCh c = false ∧ ¬ c = '\n' ∧ ¬ c = '-' := by
  refine ⟨?_, ?_, ?_, ?_⟩
  · simp only [isJsWs, Bool.or_eq_false_iff, decide_eq_false_iff_not]
    omega
  · simp only [isQuoteCh, Bool.or_eq_false_iff, decide_eq_false_iff_not]
    omega
  · exact char_ne_of_toNat_ne (by intro h0; rw [show ('\n').toNat = 10 from rfl] at h0; omega)
  · exact char_ne_of_toNat_ne (by intro h0; rw [show ('-').toNat = 45 from rfl] at h0; omega)

/-- Every character the decimal renderer produces is a digit. -/
theorem natDigitsAux_digits (fuel : Nat) :
    ∀ n acc, (∀ c ∈ acc, 48 ≤ c.toNat ∧ c.toNat ≤ 57) →
      ∀ c ∈ natDigitsAux fuel n acc, 48 ≤ c.toNat ∧ c.toNat ≤ 57 := by
  induction fuel with
  | zero => intro n acc hacc c hc; exact hacc c hc
  | succ fuel ih =>
      intro n acc hacc c hc
      have hd : 48 ≤ (Char.ofNat (48 + n % 10)).toNat ∧
          (Char.ofNat (48 + n % 10)).toNat ≤ 57 := by
        have hlt : n % 10 < 10 := Nat.mod_lt n (by omega)
        have hval : (Char.ofNat (48 + n % 10)).toNat = 48 + n % 10 := by
          rw [Char.ofNat, dif_pos (Or.inl (by omega : 48 + n % 10 < 0xd800))]
          rfl
        omega
      rw [natDigitsAux] at hc
      by_cases hn : n < 10
      · rw [if_pos hn] at hc
        rcases List.mem_cons.mp hc with h0 | h0
        · rw [h0]; exact hd
        · exact hacc c h0
      · rw [if_neg hn] at hc
        refine ih (n / 10) _ ?_ c hc
        intro x hx
        rcases List.mem_cons.mp hx with h0 | h0
        · rw [h0]; exact hd
        · exact hacc x h0

/-- Every character of a rendered order value is a digit. -/
theorem natRepr_digits (n : Nat) : ∀ c ∈ natRepr n, 48 ≤ c.toNat ∧ c.toNat ≤ 57 :=
  natDigitsAux_digits (n + 1) n [] (by simp)

/-- The decimal renderer never returns the empty list. -/
theorem natRepr_ne_nil (n : Nat) : natRepr n ≠ [] := by
  unfold natRepr
  rw [natDigitsAux]
  by_cases hn : n < 10
  · rw [if_pos hn]; exact List.cons_ne_nil _ _
  · rw [if_neg hn]
    have : ∀ fuel m (acc : List Char), acc ≠ [] → natDigitsAux fuel m acc ≠ [] := by
      intro fuel
      induction fuel with
      | zero => intro m acc h; exact h
      | succ fuel ih =>
          intro m acc h
          rw [natDigitsAux]
          by_cases hm : m < 10
          · rw [if_pos hm]; exact List.cons_ne_nil _ _
          · rw [if_neg hm]
            exact ih (m / 10) _ (List.cons_ne_nil _ _)
    exact this n (n / 10) _ (List.cons_ne_nil _ _)

/-- dropWhile is the identity when the head fails the predicate. -/
theorem dropWhile_eq_self_of_head {α : Type} (p : α → Bool) (l : List α)
    (h : ∀ c, l.head? = some c → p c = false) : l.dropWhile p = l := by
  cases l with
  | nil => rfl
  | cons x r =>
      rw [List.dropWhile_cons, if_neg]
      rw [h x rfl]
      simp

/-- Trimming is the identity on a list with non-whitespace ends. -/
theorem jsTrim_eq_self (l : List Char)
    (hh : ∀ c, l.head? = some c → isJsWs c = false)
    (hl : ∀ c, l.getLast? = some c → isJsWs c = false) : jsTrim l = l := by
  unfold jsTrim
  rw [dropWhile_eq_self_of_head isJsWs l hh]
  rw [dropWhile_eq_self_of_head isJsWs l.reverse
    (by intro c hc; rw [List.head?_reverse] at hc; exact hl c hc)]
  exact List.reverse_reverse l

/-- Trimming drops one leading whitespace character. -/
theorem jsTrim_cons_ws (c : Char) (l : List Char) (hc : isJsWs c = true) :
    jsTrim (c :: l) = jsTrim l := by
  unfold jsTrim
  rw [List.dropWhile_cons, if_pos (by rw [hc])]

/-- Quote stripping is the identity on a list with non-quote ends. -/
theorem stripQuotes_eq_self (l : List Char)
    (hh : ∀ c, l.head? = some c → isQuoteCh c = false)
    (hl : ∀ c, l.getLast? = some c → isQuoteCh c = false) : stripQuotes l = l := by
  unfold stripQuotes
  have h1 : stripLeadQuote l = l := by
    cases l with
    | nil => rfl
    | cons x r =>
        rw [stripLeadQuote, if_neg]
        rw [hh x rfl]
        simp
  rw [h1]
  unfold stripTrailQuote
  split
  · rename_i y yr hrev
    rw [if_neg]
    have : l.getLast? = some y := by rw [List.getLast?_eq_head?_reverse, hrev]; rfl
    rw [hl y this]
    simp
  · rfl

/-- Round trip of a double-quoted value: leading and trailing added quotes
are stripped, the value itself untouched. -/
theorem stripQuotes_quoted (v : List Char) :
    stripQuotes ('"' :: (v ++ ['"'])) = v := by
  unfold stripQuotes
  have h1 : stripLeadQuote ('"' :: (v ++ ['"'])) = v ++ ['"'] := by
    rw [stripLeadQuote, if_pos (by decide)]
  rw [h1]
  unfold stripTrailQuote
  have hrev : (v ++ ['"']).reverse = '"' :: v.reverse := by
    rw [List.reverse_append]
    rfl
  rw [hrev]
  show (if isQuoteCh '"' = true then v.reverse.reverse else v ++ ['"']) = v
  rw [if_pos (by decide)]
  exact List.reverse_reverse v

/-- A trimmed quoted rendering: the leading space is dropped, the rest kept. -/
theorem jsTrim_quoted (v : List Char) :
    jsTrim (' ' :: '"' :: (v ++ ['"'])) = '"' :: (v ++ ['"']) := by
  rw [jsTrim_cons_ws ' ' _ (by decide)]
  refine jsTrim_eq_self _ ?_ ?_
  · intro c hc
    injection hc with h0
    rw [← h0]
    decide
  · intro c hc
    have : ('"' :: (v ++ ['"'])).getLast? = some '"' := by
      rw [show ('"' :: (v ++ ['"'])) = ('"' :: v) ++ ['"'] by simp]
      exact List.getLast?_concat _
    rw [this] at hc
    injection hc with h0
    rw [← h0]
    decide

/-- A colon-free prefix makes the first colon of the appended line the split
point. -/
theorem colonSplit_append (k w : List Char) (hk : colonSplit k = none) :
    colonSplit (k ++ ':' :: w) = some (k, w) := by
  induction k with
  | nil => rw [List.nil_append, colonSplit, if_pos rfl]
  | cons x r ih =>
      rw [colonSplit] at hk
      by_cases hx : x = ':'
      · rw [if_pos hx] at hk
        exact absurd hk (by simp)
      · rw [if_neg hx] at hk
        rcases hrec : colonSplit r with _ | p
        · rw [List.cons_append, colonSplit, if_neg hx, ih hrec]
        · rw [hrec] at hk
          rcases p with ⟨a, b⟩
          exact absurd hk (by simp)

/-- Parsing back a rendered quoted field line gives the key and the exact
value. -/
theorem parseYamlLine_quoted (k v : List Char) (hk : colonSplit k = none)
    (hkne : ¬ k = []) (hktrim : jsTrim k = k) :
    parseYamlLine (renderLine k v true) = some (k, v) := by
  have hshape : renderLine k v true = k ++ ':' :: (' ' :: '"' :: (v ++ ['"'])) := by
    simp [renderLine, List.append_assoc]
  rw [hshape]
  unfold parseYamlLine
  rw [colonSplit_append k _ hk]
  show (if k = [] then none
    else some (jsTrim k, stripQuotes (jsTrim (' ' :: '"' :: (v ++ ['"']))))) = some (k, v)
  rw [if_neg hkne, hktrim, jsTrim_quoted, stripQuotes_quoted]

/-- Parsing back a rendered bare (numeric) field line gives the key and the
exact value. -/
theorem parseYamlLine_bare (k v : List Char) (hk : colonSplit k = none)
    (hkne : ¬ k = []) (hktrim : jsTrim k = k)
    (hv1 : jsTrim v = v) (hv2 : stripQuotes v = v) :
    parseYamlLine (renderLine k v false) = some (k, v) := by
  have hshape : renderLine k v false = k ++ ':' :: (' ' :: v) := by
    simp [renderLine, List.append_assoc]
  rw [hshape]
  unfold parseYamlLine
  rw [colonSplit_append k _ hk]
  show (if k = [] then none
    else some (jsTrim k, stripQuotes (jsTrim (' ' :: v)))) = some (k, v)
  rw [if_neg hkne, hktrim, jsTrim_cons_ws ' ' v (by decide), hv1, hv2]

/-- Separator-safety scanner: no newline is followed by a dash, and the list
does not end in a newline (so no `\n---` delimiter can arise before the one
appended by the generator). -/
def nlOkAux : List Char → Bool
  | [] => true
  | [c] => ! (c = '\n' : Bool)
  | c :: d :: rest => (if c = '\n' then ! (d = '-' : Bool) else true) && nlOkAux (d :: rest)

/-- Newline-free lists are separator-safe. -/
theorem nlOkAux_of_no_nl (l : List Char) (h : ∀ c ∈ l, ¬ c = '\n') :
    nlOkAux l = true := by
  induction l with
  | nil => rfl
  | cons c rest ih =>
      cases rest with
      | nil =>
          rw [nlOkAux]
          simp [h c (List.mem_cons_self c [])]
      | cons d r =>
          rw [nlOkAux, if_neg (h c (List.mem_cons_self c _))]
          rw [ih fun x hx => h x (List.mem_cons_of_mem c hx)]
          rfl

/-- Separator safety of a newline-free line joined before further safe
content that does not start with a dash. -/
theorem nlOkAux_append (L rest : List Char) (hL : ∀ c ∈ L, ¬ c = '\n')
    (hres : nlOkAux rest = true) (hhead : ∀ c, rest.head? = some c → ¬ c = '-')
    (hne : rest ≠ []) : nlOkAux (L ++ '\n' :: rest) = true := by
  induction L with
  | nil =>
      rw [List.nil_append]
      cases rest with
      | nil => exact absurd rfl hne
      | cons r0 r' =>
          rw [nlOkAux, if_pos rfl, hres]
          have h0 : ¬ r0 = '-' := hhead r0 rfl
          simp [h0]
  | cons c L' ih =>
      have hc : ¬ c = '\n' := hL c (List.mem_cons_self c L')
      have ih' := ih fun x hx => hL x (List.mem_cons_of_mem c hx)
      cases L' with
      | nil =>
          rw [List.cons_append, List.nil_append, nlOkAux, if_neg hc]
          rw [List.nil_append] at ih'
          rw [ih']
          rfl
      | cons d L'' =>
          rw [List.cons_append, List.cons_append, nlOkAux, if_neg hc]
          rw [List.cons_append] at ih'
          rw [ih']
          rfl

/-- Separator safety of joined lines that are newline-free and do not start
with a dash. -/
theorem nlOkAux_joinLines (Ls : List (List Char))
    (h : ∀ L ∈ Ls, (∀ c ∈ L, ¬ c = '\n') ∧ L ≠ [] ∧
      ∀ c, L.head? = some c → ¬ c = '-') :
    nlOkAux (joinLines Ls) = true := by
  induction Ls with
  | nil => rfl
  | cons L Ls' ih =>
      cases Ls' with
      | nil =>
          rw [joinLines]
          exact nlOkAux_of_no_nl L (h L (List.mem_cons_self L [])).1
      | cons L2 Ls'' =>
          rw [joinLines]
          · refine nlOkAux_append L _ (h L (List.mem_cons_self L _)).1
              (ih fun M hM => h M (List.mem_cons_of_mem L hM)) ?_ ?_
            · intro c hc
              have h2 := h L2 (List.mem_cons_of_mem L (List.mem_cons_self L2 Ls''))
              obtain ⟨x, xs, hxx⟩ := List.exists_cons_of_ne_nil h2.2.1
              cases Ls'' with
              | nil =>
                  rw [joinLines, hxx] at hc
                  injection hc with h0
                  rw [h0] at hxx
                  exact h2.2.2 c (by rw [hxx]; rfl)
              | cons L3 Ls3 =>
                  rw [joinLines] at hc
                  · rw [hxx, List.cons_append] at hc
                    injection hc with h0
                    rw [h0] at hxx
                    exact h2.2.2 c (by rw [hxx]; rfl)
                  · intro h0
                    exact List.noConfusion h0
            · cases Ls'' with
              | nil =>
                  rw [joinLines]
                  exact (h L2 (List.mem_cons_of_mem L (List.mem_cons_self L2 []))).2.1
              | cons L3 Ls3 =>
                  rw [joinLines]
                  · have h2 := h L2 (List.mem_cons_of_mem L (List.mem_cons_self L2 _))
                    obtain ⟨x, xs, hxx⟩ := List.exists_cons_of_ne_nil h2.2.1
                    rw [hxx, List.cons_append]
                    exact List.cons_ne_nil x _
                  · intro h0
                    exact List.noConfusion h0
          · intro h0
            exact List.noConfusion h0

/-- Separator safety is preserved by dropping the head. -/
theorem nlOkAux_tail (c : Char) (t : List Char) (h : nlOkAux (c :: t) = true) :
    nlOkAux t = true := by
  cases t with
  | nil => rfl
  | cons d r =>
      rw [nlOkAux, Bool.and_eq_true] at h
      exact h.2

/-- The delimiter search lands exactly on the `\n---` appended after a
separator-safe front-matter block. -/
theorem findDelim_append (xs ys : List Char) (h : nlOkAux xs = true) :
    findDelim (xs ++ '\n' :: '-' :: '-' :: '-' :: ys) = some (xs, ys) := by
  induction xs with
  | nil =>
      rw [List.nil_append, findDelim,
        if_pos (show List.take 4 ('\n' :: '-' :: '-' :: '-' :: ys) = "\n---".toList from rfl)]
      rfl
  | cons c xs' ih =>
      have hfail : ¬ ((c :: (xs' ++ '\n' :: '-' :: '-' :: '-' :: ys)).take 4
          = "\n---".toList) := by
        intro hx
        rw [List.take_succ_cons] at hx
        injection hx with h1 h2
        subst h1
        cases xs' with
        | nil =>
            rw [nlOkAux] at h
            simp at h
        | cons d xs'' =>
            rw [nlOkAux, if_pos rfl, Bool.and_eq_true] at h
            rw [List.cons_append, List.take_succ_cons] at h2
            injection h2 with h21 h22
            rw [h21] at h
            simp at h
      rw [List.cons_append, findDelim, if_neg hfail, ih (nlOkAux_tail c xs' h)]

/-- A successful last-wins lookup names a pair of the list. -/
theorem foldl_lookup_aux (ps : List (List Char × List Char)) (k : List Char) :
    ∀ (a : Option (List Char)) v,
      ps.foldl (fun acc p => if p.1 = k then some p.2 else acc) a = some v →
      a = some v ∨ (k, v) ∈ ps := by
  induction ps with
  | nil => intro a v h; exact Or.inl h
  | cons q ps' ih =>
      intro a v h
      rw [List.foldl_cons] at h
      rcases ih _ v h with h0 | h0
      · by_cases hq : q.1 = k
        · rw [if_pos hq] at h0
          injection h0 with h0
          refine Or.inr ?_
          have hqe : q = (k, v) := by
            rcases q with ⟨q1, q2⟩
            simp at hq h0
            rw [hq, h0]
          rw [hqe]
          exact List.mem_cons_self _ _
        · rw [if_neg hq] at h0
          exact Or.inl h0
      · exact Or.inr (List.mem_cons_of_mem q h0)

/-- A successful last-wins lookup returns the value of a present pair. -/
theorem lastLookup_mem (ps : List (List Char × List Char)) (k v : List Char)
    (h : lastLookup ps k = some v) : (k, v) ∈ ps := by
  rcases foldl_lookup_aux ps k none v h with h0 | h0
  · exact absurd h0 (by simp)
  · exact h0

/-- A character of a line of the split is a character of the split input. -/
theorem mem_of_mem_linesOf (s : List Char) : ∀ L ∈ linesOf s, ∀ c ∈ L, c ∈ s := by
  induction s with
  | nil =>
      intro L hL c hc
      simp [linesOf] at hL
      rw [hL] at hc
      simp at hc
  | cons x xs ih =>
      intro L hL c hc
      by_cases hx : x = '\n'
      · subst hx
        rw [linesOf, if_pos rfl] at hL
        rcases List.mem_cons.mp hL with h0 | h0
        · rw [h0] at hc; simp at hc
        · exact List.mem_cons_of_mem _ (ih L h0 c hc)
      · rw [linesOf, if_neg hx] at hL
        rcases hmatch : linesOf xs with _ | ⟨l0, ls⟩
        · rw [hmatch] at hL
          simp at hL
          rw [hL] at hc
          rcases List.mem_cons.mp hc with h0 | h0
          · rw [h0]; exact List.mem_cons_self x xs
          · simp at h0
        · rw [hmatch] at hL
          rcases List.mem_cons.mp hL with h0 | h0
          · rw [h0] at hc
            rcases List.mem_cons.mp hc with h1 | h1
            · rw [h1]; exact List.mem_cons_self x xs
            · exact List.mem_cons_of_mem x
                (ih l0 (by rw [hmatch]; exact List.mem_cons_self l0 ls) c h1)
          · exact List.mem_cons_of_mem x
              (ih L (by rw [hmatch]; exact List.mem_cons_of_mem l0 h0) c hc)

/-- A value of the YAML mapping of a block only contains characters of the
block. -/
theorem parseYamlFrontmatter_value_subset (s : List Char) (k v : List Char)
    (h : (k, v) ∈ parseYamlFrontmatter (some s)) : ∀ c ∈ v, c ∈ s := by
  intro c hc
  unfold parseYamlFrontmatter at h
  rcases List.mem_filterMap.mp h with ⟨line, hline, hparse⟩
  unfold parseYamlLine at hparse
  rcases hcs : colonSplit line with _ | ⟨k0, v0⟩
  · rw [hcs] at hparse; exact absurd hparse (by simp)
  · rw [hcs] at hparse
    have hparse2 : (if k0 = [] then none
        else some (jsTrim k0, stripQuotes (jsTrim v0))) = some (k, v) := hparse
    by_cases hk0 : k0 = []
    · rw [if_pos hk0] at hparse2
      exact absurd hparse2 (by simp)
    · rw [if_neg hk0] at hparse2
      injection hparse2 with hp
      injection hp with hp1 hp2
      have hcv : c ∈ v0 := by
        rw [← hp2] at hc
        exact mem_jsTrim_subset v0 c (mem_stripQuotes_subset (jsTrim v0) c hc)
      have hcl : c ∈ line := (colonSplit_subset line k0 v0 hcs).2 c hcv
      exact mem_of_mem_linesOf s line hline c hcl

/-- A truthy-lookup value of a source front-matter block is newline-free. -/
theorem truthyLookup_value_no_nl (fm : Option (List Char)) (k v : List Char)
    (h : truthyLookup (parseYamlFrontmatter fm) k = some v) : ∀ c ∈ v, ¬ c = '\n' := by
  unfold truthyLookup at h
  rcases hll : lastLookup (parseYamlFrontmatter fm) k with _ | v0
  · rw [hll] at h
    exact absurd h (by simp)
  · rw [hll] at h
    have h2 : (if v0 = [] then none else some v0) = some v := h
    by_cases hv0 : v0 = []
    · rw [if_pos hv0] at h2
      exact absurd h2 (by simp)
    · rw [if_neg hv0] at h2
      injection h2 with h0
      subst h0
      cases fm with
      | none => simp [parseYamlFrontmatter, lastLookup] at hll
      | some s =>
          have hmem := lastLookup_mem _ k v0 hll
          intro c hc hnl
          subst hnl
          rcases List.mem_filterMap.mp
            (show (k, v0) ∈ (linesOf s).filterMap parseYamlLine from hmem) with
            ⟨line, hline, hparse⟩
          have hv := mem_linesOf_no_nl s line hline
          unfold parseYamlLine at hparse
          rcases hcsl : colonSplit line with _ | ⟨k1, v1⟩
          · rw [hcsl] at hparse
            exact absurd hparse (by simp)
          · rw [hcsl] at hparse
            have hparse2 : (if k1 = [] then none
                else some (jsTrim k1, stripQuotes (jsTrim v1))) = some (k, v0) := hparse
            by_cases hk1 : k1 = []
            · rw [if_pos hk1] at hparse2
              exact absurd hparse2 (by simp)
            · rw [if_neg hk1] at hparse2
              injection hparse2 with hp
              injection hp with hp1 hp2
              have hcv1 : '\n' ∈ v1 := by
                rw [← hp2] at hc
                exact mem_jsTrim_subset v1 '\n' (mem_stripQuotes_subset (jsTrim v1) '\n' hc)
              exact hv '\n' ((colonSplit_subset line k1 v1 hcsl).2 '\n' hcv1) rfl

/-- The title regexp capture is newline-free (the regexp dot excludes
newlines). -/
theorem titleAttempt_no_nl (l t : List Char) (h : titleAttempt l = some t) :
    ∀ c ∈ t, ¬ c = '\n' := by
  simp only [titleAttempt] at h
  split at h
  · split at h
    · exact absurd h (by simp)
    · split at h
      · split at h
        · exact absurd h (by simp)
        · split at h
          · split at h
            · injection h with h0
              rename_i hcond
              intro c hc
              rw [← h0] at hc
              have hall := hcond.2.2
              rw [List.all_eq_true] at hall
              exact of_decide_eq_true (hall c hc)
            · exact absurd h (by simp)
          · exact absurd h (by simp)
      · exact absurd h (by simp)
  · exact absurd h (by simp)

/-- The title search result is newline-free. -/
theorem titleScan_no_nl (l t : List Char) (h : titleScan l = some t) :
    ∀ c ∈ t, ¬ c = '\n' := by
  induction l with
  | nil => exact absurd h (by simp [titleScan])
  | cons c0 rest ih =>
      rw [titleScan] at h
      rcases ha : titleAttempt (c0 :: rest) with _ | t0
      · rw [ha] at h
        exact ih h
      · rw [ha] at h
        injection h with h0
        rw [← h0]
        exact titleAttempt_no_nl _ t0 ha

/-- Dropping the first `.md` only removes characters. -/
theorem mem_removeFirstMd_subset (l : List Char) : ∀ c ∈ removeFirstMd l, c ∈ l := by
  induction l with
  | nil => intro c hc; simp [removeFirstMd] at hc
  | cons x r ih =>
      intro c hc
      rw [removeFirstMd] at hc
      by_cases hx : (x :: r).take 3 = ".md".toList
      · rw [if_pos hx] at hc
        exact List.mem_cons_of_mem x (List.drop_subset 2 r hc)
      · rw [if_neg hx] at hc
        rcases List.mem_cons.mp hc with h0 | h0
        · rw [h0]; exact List.mem_cons_self x r
        · exact List.mem_cons_of_mem x (ih c h0)

/-- The derived default title of a newline-free filename is newline-free. -/
theorem defaultTitle_no_nl (filename : List Char)
    (hfn : ∀ c ∈ filename, ¬ c = '\n') : ∀ c ∈ defaultTitle filename, ¬ c = '\n' := by
  unfold defaultTitle
  rcases hs : titleScan filename with _ | t
  · intro c hc
    exact hfn c (mem_removeFirstMd_subset filename c hc)
  · intro c hc
    rcases List.mem_map.mp hc with ⟨x, hx, hxc⟩
    have hxn := titleScan_no_nl filename t hs x hx
    rw [← hxc]
    by_cases hu : x = '_'
    · rw [if_pos hu]; decide
    · rw [if_neg hu]; exact hxn

/-- The rendered order value survives trimming and quote stripping, and is
newline-free. -/
theorem natRepr_clean (n : Nat) :
    jsTrim (natRepr n) = natRepr n ∧ stripQuotes (natRepr n) = natRepr n ∧
      ∀ c ∈ natRepr n, ¬ c = '\n' := by
  have hd : ∀ c ∈ natRepr n, 48 ≤ c.toNat ∧ c.toNat ≤ 57 := natRepr_digits n
  refine ⟨?_, ?_, ?_⟩
  · refine jsTrim_eq_self _ ?_ ?_
    · intro c hc
      have hm := List.mem_of_mem_head? (Option.mem_def.mpr hc)
      exact (digit_char_flags c (hd c hm).1 (hd c hm).2).1
    · intro c hc
      have hm := List.mem_of_mem_getLast? (Option.mem_def.mpr hc)
      exact (digit_char_flags c (hd c hm).1 (hd c hm).2).1
  · refine stripQuotes_eq_self _ ?_ ?_
    · intro c hc
      have hm := List.mem_of_mem_head? (Option.mem_def.mpr hc)
      exact (digit_char_flags c (hd c hm).1 (hd c hm).2).2.1
    · intro c hc
      have hm := List.mem_of_mem_getLast? (Option.mem_def.mpr hc)
      exact (digit_char_flags c (hd c hm).1 (hd c hm).2).2.1
  · intro c hc
    exact (digit_char_flags c (hd c hc).1 (hd c hc).2).2.2.1


/-- Facts a generated key must satisfy for the serialized line to parse back
to that key: colon-free, nonempty, trimmed, newline-free, and not starting
with a dash. -/
def keyFacts (k : List Char) : Prop :=
  colonSplit k = none ∧ ¬ k = [] ∧ jsTrim k = k ∧
    (∀ c ∈ k, ¬ c = '\n') ∧ ∀ c, k.head? = some c → ¬ c = '-'

/-- All five generated keys satisfy the key facts. -/
theorem keys_ok :
    keyFacts "title".toList ∧ keyFacts "order".toList ∧
      keyFacts "cover".toList ∧ keyFacts "cover_url".toList ∧
      keyFacts "cover_media_id".toList := by
  refine ⟨?_, ?_, ?_, ?_, ?_⟩ <;> exact ⟨by decide, by decide, by decide,
    by decide, fun c hc => by injection hc with h0; rw [← h0]; decide⟩

/-- Shape facts about every generated front-matter field: the key is well
behaved, the value is newline-free, and the only bare (unquoted) field is the
rendered order. -/
theorem genPairs_facts (filename : List Char) (fm : Option (List Char))
    (hfn : ∀ c ∈ filename, ¬ c = '\n') :
    ∀ p ∈ genPairs filename fm,
      keyFacts p.1 ∧ (∀ c ∈ p.2.1, ¬ c = '\n') ∧
        (p.2.2 = false → p.2.1 = natRepr (getChapterOrder filename)) := by
  intro p hp
  simp only [genPairs] at hp
  rcases List.mem_append.mp hp with hp1 | hp1
  · rcases List.mem_append.mp hp1 with hp2 | hp2
    · rcases List.mem_append.mp hp2 with hp3 | hp3
      · -- base fields: title and order
        rcases List.mem_cons.mp hp3 with hp4 | hp4
        · rcases ht : truthyLookup (parseYamlFrontmatter fm) "title".toList
            with _ | tv
          · rw [ht] at hp4
            have hp5 : p = ("title".toList, defaultTitle filename, true) := hp4
            subst hp5
            exact ⟨keys_ok.1, defaultTitle_no_nl filename hfn,
              fun hx => Bool.noConfusion hx⟩
          · rw [ht] at hp4
            have hp5 : p = ("title".toList, tv, true) := hp4
            subst hp5
            exact ⟨keys_ok.1, truthyLookup_value_no_nl fm _ tv ht,
              fun hx => Bool.noConfusion hx⟩
        · rcases List.mem_cons.mp hp4 with hp5 | hp5
          · subst hp5
            exact ⟨keys_ok.2.1, (natRepr_clean _).2.2, fun _ => rfl⟩
          · simp at hp5
      · -- cover field
        rcases hc1 : truthyLookup (parseYamlFrontmatter fm) "cover".toList
          with _ | v1
        · rw [hc1] at hp3
          simp at hp3
        · rw [hc1] at hp3
          have hp4 : p ∈ [("cover".toList, v1, true)] := hp3
          have hp5 : p = ("cover".toList, v1, true) :=
            (List.mem_singleton).mp hp4
          subst hp5
          exact ⟨keys_ok.2.2.1, truthyLookup_value_no_nl fm _ v1 hc1,
            fun hx => Bool.noConfusion hx⟩
    · -- cover_url field
      rcases hc2 : truthyLookup (parseYamlFrontmatter fm) "cover_url".toList
        with _ | v2
      · rw [hc2] at hp2
        simp at hp2
      · rw [hc2] at hp2
        have hp4 : p ∈ [("cover_url".toList, v2, true)] := hp2
        have hp5 : p = ("cover_url".toList, v2, true) :=
          (List.mem_singleton).mp hp4
        subst hp5
        exact ⟨keys_ok.2.2.2.1, truthyLookup_value_no_nl fm _ v2 hc2,
          fun hx => Bool.noConfusion hx⟩
  · -- cover_media_id field
    rcases hc3 : truthyLookup (parseYamlFrontmatter fm) "cover_media_id".toList
      with _ | v3
    · rw [hc3] at hp1
      simp at hp1
    · rw [hc3] at hp1
      have hp4 : p ∈ [("cover_media_id".toList, v3, true)] := hp1
      have hp5 : p = ("cover_media_id".toList, v3, true) :=
        (List.mem_singleton).mp hp4
      subst hp5
      exact ⟨keys_ok.2.2.2.2, truthyLookup_value_no_nl fm _ v3 hc3,
        fun hx => Bool.noConfusion hx⟩

/-- A rendered field line is newline-free, nonempty, and does not start with
a dash, given a well-behaved key and a newline-free value. -/
theorem renderLine_line_facts (k v : List Char) (q : Bool)
    (hk : keyFacts k) (hv : ∀ c ∈ v, ¬ c = '\n') :
    (∀ c ∈ renderLine k v q, ¬ c = '\n') ∧ renderLine k v q ≠ [] ∧
      ∀ c, (renderLine k v q).head? = some c → ¬ c = '-' := by
  obtain ⟨hk1, hk2, hk3, hk4, hk5⟩ := hk
  obtain ⟨x, xs, hxx⟩ := List.exists_cons_of_ne_nil hk2
  cases q with
  | true =>
      have he : renderLine k v true = k ++ ':' :: ' ' :: '"' :: (v ++ ['"']) := by
        simp [renderLine, List.append_assoc]
      refine ⟨?_, ?_, ?_⟩
      · intro c hc
        rw [he] at hc
        rcases List.mem_append.mp hc with h | h
        · exact hk4 c h
        · rcases List.mem_cons.mp h with h0 | h0
          · rw [h0]; decide
          · rcases List.mem_cons.mp h0 with h1 | h1
            · rw [h1]; decide
            · rcases List.mem_cons.mp h1 with h2 | h2
              · rw [h2]; decide
              · rcases List.mem_append.mp h2 with h3 | h3
                · exact hv c h3
                · rw [List.mem_singleton.mp h3]; decide
      · rw [he, hxx]
        exact List.cons_ne_nil x _
      · intro c hc
        rw [he, hxx] at hc
        have hc2 : some x = some c := hc
        injection hc2 with h0
        rw [← h0]
        exact hk5 x (by rw [hxx]; rfl)
  | false =>
      have he : renderLine k v false = k ++ ':' :: ' ' :: v := by
        simp [renderLine, List.append_assoc]
      refine ⟨?_, ?_, ?_⟩
      · intro c hc
        rw [he] at hc
        rcases List.mem_append.mp hc with h | h
        · exact hk4 c h
        · rcases List.mem_cons.mp h with h0 | h0
          · rw [h0]; decide
          · rcases List.mem_cons.mp h0 with h1 | h1
            · rw [h1]; decide
            · exact hv c h1
      · rw [he, hxx]
        exact List.cons_ne_nil x _
      · intro c hc
        rw [he, hxx] at hc
        have hc2 : some x = some c := hc
        injection hc2 with h0
        rw [← h0]
        exact hk5 x (by rw [hxx]; rfl)

/-- Parsing the rendered lines back recovers exactly the key-value pairs. -/
theorem filterMap_renderLines (G : List (List Char × List Char × Bool))
    (h : ∀ p ∈ G, keyFacts p.1 ∧
      (p.2.2 = false → jsTrim p.2.1 = p.2.1 ∧ stripQuotes p.2.1 = p.2.1)) :
    (G.map (fun p => renderLine p.1 p.2.1 p.2.2)).filterMap parseYamlLine =
      G.map (fun p => (p.1, p.2.1)) := by
  induction G with
  | nil => rfl
  | cons p G' ih =>
      have hp := h p (List.mem_cons_self p G')
      have hih := ih fun q hq => h q (List.mem_cons_of_mem p hq)
      rcases p with ⟨k, v, q⟩
      obtain ⟨⟨hk1, hk2, hk3, _, _⟩, hbare⟩ := hp
      cases q with
      | true =>
          rw [List.map_cons, List.filterMap_cons, List.map_cons]
          simp only [parseYamlLine_quoted k v hk1 hk2 hk3]
          rw [hih]
      | false =>
          obtain ⟨hv1, hv2⟩ := hbare rfl
          rw [List.map_cons, List.filterMap_cons, List.map_cons]
          simp only [parseYamlLine_bare k v hk1 hk2 hk3 hv1 hv2]
          rw [hih]

/-- A generated front matter followed by the blank separator and a body parses
back to exactly the generated block. -/
theorem parseFrontmatter_gen (J body : List Char) (h : nlOkAux J = true) :
    parseFrontmatter ("---\n".toList ++ J ++ "\n---".toList ++ "\n\n".toList ++ body)
      = (some J, jsTrim ('\n' :: '\n' :: body)) := by
  have hshape : "---\n".toList ++ J ++ "\n---".toList ++ "\n\n".toList ++ body
      = '-' :: '-' :: '-' :: '\n' ::
          (J ++ '\n' :: '-' :: '-' :: '-' :: ('\n' :: '\n' :: body)) := by
    simp [List.append_assoc]
  rw [hshape]
  unfold parseFrontmatter
  rw [if_pos (show List.take 4 ('-' :: '-' :: '-' :: '\n' ::
    (J ++ '\n' :: '-' :: '-' :: '-' :: ('\n' :: '\n' :: body))) = "---\n".toList from rfl)]
  rw [show List.drop 4 ('-' :: '-' :: '-' :: '\n' ::
    (J ++ '\n' :: '-' :: '-' :: '-' :: ('\n' :: '\n' :: body)))
      = J ++ '\n' :: '-' :: '-' :: '-' :: ('\n' :: '\n' :: body) from rfl]
  rw [findDelim_append J ('\n' :: '\n' :: body) h]

/-- The front matter a later run reads back from a freshly synced file is
exactly the generated field mapping, looked up last-wins. -/
theorem fmFieldOf_syncFile (filename src k : List Char)
    (hfn : ∀ c ∈ filename, ¬ c = '\n') :
    fmFieldOf (syncFile filename src) k =
      lastLookup ((genPairs filename (parseFrontmatter src).1).map
        (fun p => (p.1, p.2.1))) k := by
  have hfacts : ∀ p ∈ genPairs filename (parseFrontmatter src).1,
      keyFacts p.1 ∧ (∀ c ∈ p.2.1, ¬ c = '\n') ∧
        (p.2.2 = false → p.2.1 = natRepr (getChapterOrder filename)) :=
    genPairs_facts filename _ hfn
  have hline : ∀ L ∈ (genPairs filename (parseFrontmatter src).1).map
      (fun p => renderLine p.1 p.2.1 p.2.2),
      (∀ c ∈ L, ¬ c = '\n') ∧ L ≠ [] ∧ ∀ c, L.head? = some c → ¬ c = '-' := by
    intro L hL
    obtain ⟨p, hp, hLe⟩ := List.mem_map.mp hL
    rw [← hLe]
    exact renderLine_line_facts p.1 p.2.1 p.2.2 (hfacts p hp).1 (hfacts p hp).2.1
  have hnl : nlOkAux (joinLines ((genPairs filename (parseFrontmatter src).1).map
      (fun p => renderLine p.1 p.2.1 p.2.2))) = true :=
    nlOkAux_joinLines _ hline
  have hne : (genPairs filename (parseFrontmatter src).1).map
      (fun p => renderLine p.1 p.2.1 p.2.2) ≠ [] := by
    simp only [genPairs, List.cons_append, List.map_cons]
    exact List.cons_ne_nil _ _
  have hparse := parseFrontmatter_gen
    (joinLines ((genPairs filename (parseFrontmatter src).1).map
      (fun p => renderLine p.1 p.2.1 p.2.2)))
    (parseFrontmatter src).2 hnl
  have hsync : syncFile filename src
      = "---\n".toList ++
          joinLines ((genPairs filename (parseFrontmatter src).1).map
            (fun p => renderLine p.1 p.2.1 p.2.2)) ++
          "\n---".toList ++ "\n\n".toList ++ (parseFrontmatter src).2 := rfl
  unfold fmFieldOf
  rw [hsync, hparse]
  show lastLookup ((linesOf (joinLines ((genPairs filename (parseFrontmatter src).1).map
      (fun p => renderLine p.1 p.2.1 p.2.2)))).filterMap parseYamlLine) k =
    lastLookup ((genPairs filename (parseFrontmatter src).1).map
      (fun p => (p.1, p.2.1))) k
  rw [linesOf_joinLines _ hne (fun L hL => (hline L hL).1)]
  rw [filterMap_renderLines _ (fun p hp => ⟨(hfacts p hp).1, fun hb => by
    rw [(hfacts p hp).2.2 hb]
    exact ⟨(natRepr_clean _).1, (natRepr_clean _).2.1⟩⟩)]

/-- C1 (amended): front-matter regeneration preserves the `cover`,
`cover_url` and `cover_media_id` fields of the SOURCE file's front matter
(the destination is overwritten without being read, as `c1_counterexample`
shows for destination-only fields); `order` is always recomputed from the
filename, and `title` is the source's explicit title when present and truthy,
else the default derived from the filename. -/
theorem syncFile_amended (filename src : List Char)
    (hfn : ∀ c ∈ filename, ¬ c = '\n') :
    fmFieldOf (syncFile filename src) "order".toList
      = some (natRepr (getChapterOrder filename)) ∧
    fmFieldOf (syncFile filename src) "cover".toList
      = truthyLookup (parseYamlFrontmatter (parseFrontmatter src).1) "cover".toList ∧
    fmFieldOf (syncFile filename src) "cover_url".toList
      = truthyLookup (parseYamlFrontmatter (parseFrontmatter src).1) "cover_url".toList ∧
    fmFieldOf (syncFile filename src) "cover_media_id".toList
      = truthyLookup (parseYamlFrontmatter (parseFrontmatter src).1) "cover_media_id".toList ∧
    fmFieldOf (syncFile filename src) "title".toList
      = some (match truthyLookup (parseYamlFrontmatter (parseFrontmatter src).1)
                "title".toList with
              | some t => t
              | none => defaultTitle filename) := by
  rcases ht : truthyLookup (parseYamlFrontmatter (parseFrontmatter src).1)
      "title".toList with _ | tv <;>
    rcases h1 : truthyLookup (parseYamlFrontmatter (parseFrontmatter src).1)
      "cover".toList with _ | v1 <;>
    rcases h2 : truthyLookup (parseYamlFrontmatter (parseFrontmatter src).1)
      "cover_url".toList with _ | v2 <;>
    rcases h3 : truthyLookup (parseYamlFrontmatter (parseFrontmatter src).1)
      "cover_media_id".toList with _ | v3 <;>
    refine ⟨?_, ?_, ?_, ?_, ?_⟩ <;>
    · rw [fmFieldOf_syncFile filename src _ hfn]
      simp only [genPairs]
      rw [ht, h1, h2, h3]
      rfl

/-- Witness for C1 at a concrete filename and source content with an explicit
title and a cover field. -/
theorem syncFile_amended_witness :
    (∀ c ∈ "Chap_3_X_T.md".toList, ¬ c = '\n') ∧
    (fmFieldOf (syncFile "Chap_3_X_T.md".toList
        "---\ntitle: \"T\"\ncover: \"c.jpg\"\n---\nBody".toList) "order".toList
      = some (natRepr (getChapterOrder "Chap_3_X_T.md".toList)) ∧
    fmFieldOf (syncFile "Chap_3_X_T.md".toList
        "---\ntitle: \"T\"\ncover: \"c.jpg\"\n---\nBody".toList) "cover".toList
      = truthyLookup (parseYamlFrontmatter (parseFrontmatter
          "---\ntitle: \"T\"\ncover: \"c.jpg\"\n---\nBody".toList).1) "cover".toList ∧
    fmFieldOf (syncFile "Chap_3_X_T.md".toList
        "---\ntitle: \"T\"\ncover: \"c.jpg\"\n---\nBody".toList) "cover_url".toList
      = truthyLookup (parseYamlFrontmatter (parseFrontmatter
          "---\ntitle: \"T\"\ncover: \"c.jpg\"\n---\nBody".toList).1) "cover_url".toList ∧
    fmFieldOf (syncFile "Chap_3_X_T.md".toList
        "---\ntitle: \"T\"\ncover: \"c.jpg\"\n---\nBody".toList) "cover_media_id".toList
      = truthyLookup (parseYamlFrontmatter (parseFrontmatter
          "---\ntitle: \"T\"\ncover: \"c.jpg\"\n---\nBody".toList).1) "cover_media_id".toList ∧
    fmFieldOf (syncFile "Chap_3_X_T.md".toList
        "---\ntitle: \"T\"\ncover: \"c.jpg\"\n---\nBody".toList) "title".toList
      = some (match truthyLookup (parseYamlFrontmatter (parseFrontmatter
          "---\ntitle: \"T\"\ncover: \"c.jpg\"\n---\nBody".toList).1)
                "title".toList with
              | some t => t
              | none => defaultTitle "Chap_3_X_T.md".toList)) :=
  ⟨by decide, syncFile_amended "Chap_3_X_T.md".toList
    "---\ntitle: \"T\"\ncover: \"c.jpg\"\n---\nBody".toList (by decide)⟩

/-! ## Conditional idempotence of the cleaner (claim C3) -/

/-- Non-newline test, the character class of a line's interior. -/
def notNl (c : Char) : Bool := ! decide (c = '\n')

/-- The line split is never empty. -/
theorem linesOf_ne_nil (l : List Char) : linesOf l ≠ [] := by
  cases l with
  | nil => exact List.cons_ne_nil _ _
  | cons c rest =>
      rw [linesOf]
      by_cases hc : c = '\n'
      · rw [if_pos hc]
        exact List.cons_ne_nil _ _
      · rw [if_neg hc]
        rcases hm : linesOf rest with _ | ⟨l0, ls⟩
        · exact List.cons_ne_nil _ _
        · exact List.cons_ne_nil _ _

/-- The line split of a list with a non-newline head extends the first
line. -/
theorem linesOf_cons_of_ne (c : Char) (r : List Char) (L : List Char)
    (Ls : List (List Char)) (hc : ¬ c = '\n') (hr : linesOf r = L :: Ls) :
    linesOf (c :: r) = (c :: L) :: Ls := by
  rw [linesOf, if_neg hc, hr]

/-- Joining the line split recovers the list. -/
theorem joinLines_linesOf (l : List Char) : joinLines (linesOf l) = l := by
  induction l with
  | nil => rfl
  | cons c rest ih =>
      by_cases hc : c = '\n'
      · subst hc
        rw [linesOf, if_pos rfl]
        obtain ⟨L, Ls, hm⟩ : ∃ L Ls, linesOf rest = L :: Ls := by
          rcases hx : linesOf rest with _ | ⟨L, Ls⟩
          · exact absurd hx (linesOf_ne_nil rest)
          · exact ⟨L, Ls, rfl⟩
        rw [hm]
        rw [hm] at ih
        rw [joinLines]
        · rw [← ih, List.nil_append]
        · intro h0
          exact List.noConfusion h0
      · obtain ⟨L, Ls, hm⟩ : ∃ L Ls, linesOf rest = L :: Ls := by
          rcases hx : linesOf rest with _ | ⟨L, Ls⟩
          · exact absurd hx (linesOf_ne_nil rest)
          · exact ⟨L, Ls, rfl⟩
        rw [linesOf_cons_of_ne c rest L Ls hc hm]
        rw [hm] at ih
        cases Ls with
        | nil =>
            rw [joinLines] at ih ⊢
            rw [ih]
        | cons L2 Ls2 =>
            rw [joinLines] at ih ⊢
            · rw [List.cons_append, ih]
            · intro h0
              exact List.noConfusion h0
            · intro h0
              exact List.noConfusion h0

/-- Matching a newline-free pattern by a bounded take only depends on the
newline-free prefix. -/
theorem take_eq_iff_takeWhile (q : List Char) (hq : ∀ x ∈ q, ¬ x = '\n') :
    ∀ l : List Char,
      (l.take q.length = q ↔ (l.takeWhile notNl).take q.length = q) := by
  induction q with
  | nil => intro l; simp
  | cons a q' ih =>
      intro l
      have ha : ¬ a = '\n' := hq a (List.mem_cons_self a q')
      cases l with
      | nil => simp [List.takeWhile]
      | cons c l' =>
          by_cases hc : c = '\n'
          · subst hc
            have h1 : List.takeWhile notNl ('\n' :: l') = [] := by
              rw [List.takeWhile_cons]
              simp [notNl]
            rw [h1]
            simp only [List.length_cons, List.take_succ_cons, List.take_nil]
            constructor
            · intro hx
              injection hx with h2 h3
              exact absurd h2.symm ha
            · intro hx
              exact absurd hx (by simp)
          · have h1 : List.takeWhile notNl (c :: l') = c :: List.takeWhile notNl l' := by
              rw [List.takeWhile_cons]
              simp [notNl, hc]
            rw [h1]
            simp only [List.length_cons, List.take_succ_cons]
            constructor
            · intro hx
              injection hx with h2 h3
              rw [h2]
              have := (ih (fun x hx => hq x (List.mem_cons_of_mem a hx)) l').mp h3
              rw [this]
            · intro hx
              injection hx with h2 h3
              rw [h2]
              have := (ih (fun x hx => hq x (List.mem_cons_of_mem a hx)) l').mpr h3
              rw [this]

/-- Lists with equal newline-free prefixes match a newline-free pattern
equally. -/
theorem take_eq_transfer (q : List Char) (hq : ∀ x ∈ q, ¬ x = '\n')
    (l1 l2 : List Char) (h : l1.takeWhile notNl = l2.takeWhile notNl) :
    (l1.take q.length = q ↔ l2.take q.length = q) := by
  rw [take_eq_iff_takeWhile q hq l1, take_eq_iff_takeWhile q hq l2, h]

/-- The metadata removal is the identity on inputs without an opening tag. -/
theorem cmAux_normal_id (l : List Char) (h : hasOpener l = false) :
    cmAux .normal l = l := by
  induction l with
  | nil => rfl
  | cons c rest ih =>
      rw [hasOpener, Bool.or_eq_false_iff] at h
      rw [cmAux]
      have hcond : (isOpenAt (c :: rest) && hasCloser rest) = false := by
        rw [h.1, Bool.false_and]
      rw [hcond]
      rw [if_neg (by simp)]
      rw [ih h.2]

/-- The collapse scanner is the identity past a short pending run when no
quadruple-newline run occurs. -/
theorem collapseAux_id (l : List Char) :
    ∀ n, okAux n l = true → n ≤ 3 →
      collapseAux n l = List.replicate n '\n' ++ l := by
  induction l with
  | nil =>
      intro n h hn
      rw [collapseAux]
      unfold emitNl
      rw [Nat.min_eq_left hn, List.append_nil]
  | cons c rest ih =>
      intro n h hn
      by_cases hc : c = '\n'
      · subst hc
        rw [okAux_cons, if_pos rfl, Bool.and_eq_true] at h
        have h4 : n + 1 < 4 := of_decide_eq_true h.1
        rw [collapseAux, if_pos rfl, ih (n + 1) h.2 (by omega)]
        rw [List.replicate_succ']
        rw [List.append_assoc, List.singleton_append]
      · rw [okAux_cons, if_neg hc] at h
        rw [collapseAux, if_neg hc, ih 0 h (by omega)]
        rw [List.replicate_zero, List.nil_append]
        unfold emitNl
        rw [Nat.min_eq_left (by omega : n ≤ 3)]

/-- Scanner for the absence of a labelled-line prefix at every line start:
`b` records whether the current position begins a line. -/
def lineStartsOk (p : List Char) : Bool → List Char → Bool
  | _, [] => true
  | b, c :: rest =>
      (if b then ! decide ((c :: rest).take p.length = p) else true) &&
        lineStartsOk p (decide (c = '\n')) rest

/-- One step of the line-start scanner. -/
theorem lineStartsOk_cons (p : List Char) (b : Bool) (c : Char) (rest : List Char) :
    lineStartsOk p b (c :: rest) =
      ((if b then ! decide ((c :: rest).take p.length = p) else true) &&
        lineStartsOk p (decide (c = '\n')) rest) := by
  rw [lineStartsOk]

/-- The line-start scanner is monotone from the checking to the
non-checking initial state. -/
theorem lineStartsOk_weaken (p : List Char) (l : List Char)
    (h : lineStartsOk p true l = true) : lineStartsOk p false l = true := by
  cases l with
  | nil => rfl
  | cons c rest =>
      rw [lineStartsOk_cons] at h ⊢
      rw [Bool.and_eq_true] at h
      rw [if_neg (by simp), Bool.true_and]
      exact h.2

/-- A dash-led pattern never matches at a newline. -/
theorem dash_pat_no_nl_head (p : List Char) (hp : p.take 1 = ['-'])
    (x : List Char) : ¬ (('\n' :: x).take p.length = p) := by
  intro hx
  cases p with
  | nil => exact List.noConfusion hp
  | cons a p' =>
      rw [List.take_succ_cons, List.take_zero] at hp
      injection hp with h1 _
      rw [List.length_cons, List.take_succ_cons] at hx
      injection hx with h2 _
      rw [h1] at h2
      exact absurd h2 (by decide)

/-- A pure newline run passes the line-start scanner for dash-led
patterns. -/
theorem lineStartsOk_replicate (p : List Char) (hp : p.take 1 = ['-']) :
    ∀ k b, lineStartsOk p b (List.replicate k '\n') = true := by
  intro k
  induction k with
  | zero => intro b; rfl
  | succ k' ih =>
      intro b
      rw [List.replicate_succ, lineStartsOk_cons, Bool.and_eq_true]
      refine ⟨?_, by rw [decide_eq_true rfl]; exact ih true⟩
      cases b with
      | false => rfl
      | true =>
          rw [if_pos rfl, Bool.not_eq_true', decide_eq_false_iff_not]
          exact dash_pat_no_nl_head p hp _

/-- Prepending a nonempty newline run to a passing list passes the scanner
from any initial state. -/
theorem lineStartsOk_replicate_append (p : List Char) (hp : p.take 1 = ['-'])
    (w : List Char) (hw : lineStartsOk p true w = true) :
    ∀ k, 1 ≤ k → ∀ b, lineStartsOk p b (List.replicate k '\n' ++ w) = true := by
  intro k
  induction k with
  | zero => intro h0; omega
  | succ k' ih =>
      intro _ b
      rw [List.replicate_succ, List.cons_append, lineStartsOk_cons, Bool.and_eq_true]
      constructor
      · cases b with
        | false => rfl
        | true =>
            rw [if_pos rfl, Bool.not_eq_true', decide_eq_false_iff_not]
            exact dash_pat_no_nl_head p hp _
      · rw [decide_eq_true rfl]
        cases k' with
        | zero =>
            rw [List.replicate_zero, List.nil_append]
            exact hw
        | succ k'' => exact ih (by omega) true

/-- With pending newlines the collapse output starts with a newline. -/
theorem collapseAux_head_nl (r : List Char) :
    ∀ n, 1 ≤ n → (collapseAux n r).take 1 = ['\n'] := by
  induction r with
  | nil =>
      intro n hn
      rw [collapseAux]
      unfold emitNl
      have h1 : 1 ≤ min n 3 := by omega
      rcases hm : min n 3 with _ | k
      · omega
      · rw [List.replicate_succ, List.take_succ_cons, List.take_zero]
  | cons c rest ih =>
      intro n hn
      by_cases hc : c = '\n'
      · subst hc
        rw [collapseAux, if_pos rfl]
        exact ih (n + 1) (by omega)
      · rw [collapseAux, if_neg hc]
        unfold emitNl
        have h1 : 1 ≤ min n 3 := by omega
        rcases hm : min n 3 with _ | k
        · omega
        · rw [List.replicate_succ, List.cons_append, List.take_succ_cons, List.take_zero]

/-- The collapse scanner with no pending newlines preserves the leading
newline-free prefix. -/
theorem collapseAux_takeWhile (r : List Char) :
    (collapseAux 0 r).takeWhile notNl = r.takeWhile notNl := by
  induction r with
  | nil => rfl
  | cons c rest ih =>
      by_cases hc : c = '\n'
      · subst hc
        have h1 : (collapseAux 0 ('\n' :: rest)) = collapseAux 1 rest := by
          rw [collapseAux, if_pos rfl]
        rw [h1]
        have h2 := collapseAux_head_nl rest 1 (by omega)
        rcases hx : collapseAux 1 rest with _ | ⟨d, z⟩
        · rfl
        · rw [hx, List.take_succ_cons, List.take_zero] at h2
          injection h2 with h3 _
          subst h3
          rw [List.takeWhile_cons]
          simp [notNl]
      · rw [collapseAux, if_neg hc]
        unfold emitNl
        rw [Nat.min_eq_left (by omega : 0 ≤ 3), List.replicate_zero, List.nil_append]
        rw [List.takeWhile_cons, List.takeWhile_cons]
        have hnn : notNl c = true := by simp [notNl, hc]
        rw [hnn]
        simp only [if_pos rfl]
        rw [ih]



/-- The collapse scanner preserves the line-start invariant for dash-led
newline-free patterns (a pending newline makes the current input position a
line start). -/
theorem collapseAux_lineStartsOk (p : List Char) (hp : p.take 1 = ['-'])
    (hq : ∀ x ∈ p, ¬ x = '\n') :
    ∀ (l : List Char) (n : Nat) (b : Bool),
      lineStartsOk p (if 1 ≤ n then true else b) l = true →
      lineStartsOk p b (collapseAux n l) = true := by
  intro l
  induction l with
  | nil =>
      intro n b _
      rw [collapseAux]
      unfold emitNl
      exact lineStartsOk_replicate p hp _ b
  | cons c rest ih =>
      intro n b h
      rw [lineStartsOk_cons, Bool.and_eq_true] at h
      by_cases hc : c = '\n'
      · subst hc
        rw [collapseAux, if_pos rfl]
        apply ih (n + 1) b
        rw [if_pos (by omega : 1 ≤ n + 1)]
        rw [decide_eq_true rfl] at h
        exact h.2
      · rw [collapseAux, if_neg hc]
        have hstate : decide (c = '\n') = false := decide_eq_false hc
        rw [hstate] at h
        have htailF : lineStartsOk p false (collapseAux 0 rest) = true := by
          apply ih 0 false
          rw [if_neg (by omega : ¬ 1 ≤ 0)]
          exact h.2
        have htrans : ((c :: collapseAux 0 rest).take p.length = p) ↔
            ((c :: rest).take p.length = p) := by
          apply take_eq_transfer p hq
          rw [List.takeWhile_cons, List.takeWhile_cons]
          have hnn : notNl c = true := by simp [notNl, hc]
          rw [hnn]
          simp only [if_pos rfl]
          rw [collapseAux_takeWhile]
        by_cases hn : 1 ≤ n
        · rw [if_pos hn, if_pos rfl, Bool.not_eq_true', decide_eq_false_iff_not] at h
          unfold emitNl
          apply lineStartsOk_replicate_append p hp _ _ _ (by omega : 1 ≤ min n 3) b
          rw [lineStartsOk_cons, Bool.and_eq_true, hstate]
          refine ⟨?_, htailF⟩
          rw [if_pos rfl, Bool.not_eq_true', decide_eq_false_iff_not]
          intro hx
          exact h.1 (htrans.mp hx)
        · have hn0 : n = 0 := by omega
          subst hn0
          rw [if_neg hn] at h
          have hemit : emitNl 0 ++ c :: collapseAux 0 rest = c :: collapseAux 0 rest := rfl
          rw [hemit, lineStartsOk_cons, Bool.and_eq_true, hstate]
          refine ⟨?_, htailF⟩
          cases b with
          | false => rfl
          | true =>
              rw [if_pos rfl, Bool.not_eq_true', decide_eq_false_iff_not] at h ⊢
              intro hx
              exact h.1 (htrans.mp hx)

/-- The front-matter fix started outside a skip run preserves the leading
newline-free prefix. -/
theorem fmAux_takeWhile :
    ∀ (sk : Bool) (r : List Char), sk = false →
      (fmAux sk r).takeWhile notNl = r.takeWhile notNl := by
  intro sk r
  induction sk, r using fmAux.induct with
  | case1 x => intro _; rfl
  | case2 x rest ih =>
      intro _
      rw [fmAux_eq_pat]
      rfl
  | case3 sk c rest hno hsk ih =>
      intro hfalse
      subst hfalse
      simp at hsk
  | case4 sk c rest hno hsk ih =>
      intro hfalse
      subst hfalse
      have hno' : ¬ (c :: rest).take 5 = fmPat := by
        intro hx
        rw [List.take_succ_cons] at hx
        have hfm : fmPat = '-' :: '-' :: '-' :: '\n' :: '\n' :: ([] : List Char) := rfl
        rw [hfm] at hx
        injection hx with h1 h2
        have hr : rest = '-' :: '-' :: '\n' :: '\n' :: rest.drop 4 := by
          conv_lhs => rw [← List.take_append_drop 4 rest]
          rw [h2]
          rfl
        exact hno (rest.drop 4) h1 hr
      rw [fmAux_eq_cons false c rest hno']
      rw [if_neg (by simp)]
      by_cases hc : c = '\n'
      · subst hc
        rw [List.takeWhile_cons, List.takeWhile_cons]
        simp [notNl]
      · rw [List.takeWhile_cons, List.takeWhile_cons]
        have hnn : notNl c = true := by simp [notNl, hc]
        rw [hnn]
        simp only [if_pos rfl]
        rw [ih rfl]

/-- Closed form of the line-start scanner across the front-matter pattern,
for dash-led patterns. -/
theorem lineStartsOk_pat5 (p : List Char) (hp : p.take 1 = ['-'])
    (b : Bool) (w : List Char) :
    lineStartsOk p b ('-' :: '-' :: '-' :: '\n' :: '\n' :: w) =
      ((if b then
          ! decide (('-' :: '-' :: '-' :: '\n' :: '\n' :: w).take p.length = p)
        else true) && lineStartsOk p true w) := by
  have e0 : ∀ x, ¬ (('\n' :: x).take p.length = p) := dash_pat_no_nl_head p hp
  have e1 : decide ('-' = '\n') = false := by decide
  have e2 : decide ('\n' = '\n') = true := by decide
  have e4 : ∀ X : Bool, (if (false : Bool) = true then X else true) = true :=
    fun X => rfl
  rw [lineStartsOk_cons, lineStartsOk_cons, lineStartsOk_cons,
    lineStartsOk_cons, lineStartsOk_cons, e1, e2]
  rw [e4, e4, e4]
  rw [if_pos rfl]
  have e3 : decide (('\n' :: w).take p.length = p) = false :=
    decide_eq_false (e0 w)
  rw [e3]
  simp [Bool.and_assoc]

/-- The front-matter fix preserves the line-start invariant for dash-led
newline-free patterns. -/
theorem fmAux_lineStartsOk (p : List Char) (hp : p.take 1 = ['-'])
    (hq : ∀ x ∈ p, ¬ x = '\n') :
    ∀ (sk : Bool) (l : List Char) (b : Bool), lineStartsOk p b l = true →
      lineStartsOk p b (fmAux sk l) = true := by
  intro sk l
  induction sk, l using fmAux.induct with
  | case1 x => intro b h; exact h
  | case2 x rest ih =>
      intro b h
      rw [fmAux_eq_pat]
      rw [lineStartsOk_pat5 p hp, Bool.and_eq_true] at h ⊢
      refine ⟨?_, ih true h.2⟩
      cases b with
      | false => rfl
      | true =>
          rw [if_pos rfl, Bool.not_eq_true', decide_eq_false_iff_not] at h ⊢
          intro hx
          refine h.1 ((take_eq_transfer p hq _ _ ?_).mp hx)
          rfl
  | case3 sk c rest hno hsk ih =>
      intro b h
      rw [Bool.and_eq_true] at hsk
      have hc : c = '\n' := of_decide_eq_true hsk.2
      subst hc
      have hno' : ¬ ('\n' :: rest).take 5 = fmPat := by
        intro hx
        rw [List.take_succ_cons] at hx
        exact absurd (List.head_eq_of_cons_eq hx) (by decide)
      rw [fmAux_eq_cons sk '\n' rest hno']
      rw [if_pos (by rw [hsk.1, decide_eq_true rfl]; rfl)]
      rw [lineStartsOk_cons, Bool.and_eq_true] at h
      rw [decide_eq_true rfl] at h
      cases b with
      | true => exact ih true h.2
      | false => exact lineStartsOk_weaken p _ (ih true h.2)
  | case4 sk c rest hno hsk ih =>
      intro b h
      have hno' : ¬ (c :: rest).take 5 = fmPat := by
        intro hx
        rw [List.take_succ_cons] at hx
        have hfm : fmPat = '-' :: '-' :: '-' :: '\n' :: '\n' :: ([] : List Char) := rfl
        rw [hfm] at hx
        injection hx with h1 h2
        have hr : rest = '-' :: '-' :: '\n' :: '\n' :: rest.drop 4 := by
          conv_lhs => rw [← List.take_append_drop 4 rest]
          rw [h2]
          rfl
        exact hno (rest.drop 4) h1 hr
      rw [fmAux_eq_cons sk c rest hno', if_neg hsk]
      rw [lineStartsOk_cons, Bool.and_eq_true] at h ⊢
      constructor
      · cases b with
        | false => rfl
        | true =>
            rw [if_pos rfl, Bool.not_eq_true', decide_eq_false_iff_not] at h ⊢
            intro hx
            refine h.1 ((take_eq_transfer p hq _ _ ?_).mp hx)
            by_cases hc : c = '\n'
            · subst hc
              rw [List.takeWhile_cons, List.takeWhile_cons]
              simp [notNl]
            · rw [List.takeWhile_cons, List.takeWhile_cons]
              have hnn : notNl c = true := by simp [notNl, hc]
              rw [hnn]
              simp only [if_pos rfl]
              rw [fmAux_takeWhile false rest rfl]
      · by_cases hc : c = '\n'
        · subst hc
          rw [decide_eq_true rfl] at h ⊢
          exact ih true h.2
        · rw [decide_eq_false hc] at h ⊢
          exact ih false h.2

/-- The first line of the line split is the leading newline-free prefix. -/
theorem linesOf_head_takeWhile :
    ∀ (l : List Char) (L : List Char) (Ls : List (List Char)),
      linesOf l = L :: Ls → L = l.takeWhile notNl := by
  intro l
  induction l with
  | nil =>
      intro L Ls h
      have h2 : ([[]] : List (List Char)) = L :: Ls := h
      injection h2 with h3 _
      rw [← h3]
      rfl
  | cons c rest ih =>
      intro L Ls h
      by_cases hc : c = '\n'
      · subst hc
        rw [linesOf, if_pos rfl] at h
        injection h with h3 _
        rw [← h3, List.takeWhile_cons]
        simp [notNl]
      · obtain ⟨L0, Ls0, hm⟩ : ∃ L0 Ls0, linesOf rest = L0 :: Ls0 := by
          rcases hx : linesOf rest with _ | ⟨L0, Ls0⟩
          · exact absurd hx (linesOf_ne_nil rest)
          · exact ⟨L0, Ls0, rfl⟩
        rw [linesOf_cons_of_ne c rest L0 Ls0 hc hm] at h
        injection h with h3 _
        rw [← h3, List.takeWhile_cons]
        have hnn : notNl c = true := by simp [notNl, hc]
        rw [hnn]
        rw [← ih L0 Ls0 hm]
        simp

/-- The line split of a labelled-bullet removal pass is the per-line map. -/
theorem stripLabeled_linesOf (p l : List Char) :
    linesOf (stripLabeled p l) =
      (linesOf l).map (fun line => if line.take p.length = p then [] else line) := by
  unfold stripLabeled
  apply linesOf_joinLines
  · intro h0
    rw [List.map_eq_nil_iff] at h0
    exact linesOf_ne_nil l h0
  · intro L hL c hc
    obtain ⟨line0, h0, he⟩ := List.mem_map.mp hL
    by_cases hcond : line0.take p.length = p
    · rw [if_pos hcond] at he
      rw [← he] at hc
      simp at hc
    · rw [if_neg hcond] at he
      rw [← he] at hc
      exact mem_linesOf_no_nl l line0 h0 c hc

/-- After a removal pass no line starts with the removed prefix. -/
theorem stripLabeled_establish (p l : List Char) (hpne : p ≠ []) :
    ∀ line ∈ linesOf (stripLabeled p l), ¬ (line.take p.length = p) := by
  rw [stripLabeled_linesOf]
  intro line hline
  obtain ⟨line0, h0, he⟩ := List.mem_map.mp hline
  by_cases hcond : line0.take p.length = p
  · rw [if_pos hcond] at he
    rw [← he]
    intro hx
    rw [List.take_nil] at hx
    exact hpne hx.symm
  · rw [if_neg hcond] at he
    rw [← he]
    exact hcond

/-- A removal pass preserves the absence of any nonempty prefix at line
starts. -/
theorem stripLabeled_preserve (p q l : List Char) (hqne : q ≠ [])
    (h : ∀ line ∈ linesOf l, ¬ (line.take q.length = q)) :
    ∀ line ∈ linesOf (stripLabeled p l), ¬ (line.take q.length = q) := by
  rw [stripLabeled_linesOf]
  intro line hline
  obtain ⟨line0, h0, he⟩ := List.mem_map.mp hline
  by_cases hcond : line0.take p.length = p
  · rw [if_pos hcond] at he
    rw [← he]
    intro hx
    rw [List.take_nil] at hx
    exact hqne hx.symm
  · rw [if_neg hcond] at he
    rw [← he]
    exact h line0 h0

/-- A removal pass whose prefix starts no line is the identity. -/
theorem stripLabeled_id (p l : List Char)
    (h : ∀ line ∈ linesOf l, ¬ (line.take p.length = p)) :
    stripLabeled p l = l := by
  unfold stripLabeled
  have hmap : (linesOf l).map
      (fun line => if line.take p.length = p then [] else line) =
      (linesOf l).map (fun line => line) :=
    List.map_congr_left (fun a ha => by rw [if_neg (h a ha)])
  rw [hmap, List.map_id_fun']
  exact joinLines_linesOf l

/-- A dash-led pattern is nonempty. -/
theorem dash_pat_ne_nil (p : List Char) (hp : p.take 1 = ['-']) : p ≠ [] := by
  intro h0
  rw [h0] at hp
  exact List.noConfusion hp

/-- From per-line absence of a dash-led newline-free prefix to the
line-start scanner, in both initial states. -/
theorem lines_to_lineStartsOk (p : List Char) (hp : p.take 1 = ['-'])
    (hq : ∀ x ∈ p, ¬ x = '\n') :
    ∀ l : List Char,
      ((∀ line ∈ (linesOf l).tail, ¬ (line.take p.length = p)) →
        lineStartsOk p false l = true) ∧
      ((∀ line ∈ linesOf l, ¬ (line.take p.length = p)) →
        lineStartsOk p true l = true) := by
  intro l
  induction l with
  | nil => exact ⟨fun _ => rfl, fun _ => rfl⟩
  | cons c rest ih =>
      constructor
      · intro h
        rw [lineStartsOk_cons, Bool.and_eq_true]
        refine ⟨rfl, ?_⟩
        by_cases hc : c = '\n'
        · subst hc
          rw [decide_eq_true rfl]
          apply ih.2
          intro line hline
          apply h line
          rw [linesOf, if_pos rfl]
          exact hline
        · rw [decide_eq_false hc]
          apply ih.1
          obtain ⟨L0, Ls0, hm⟩ : ∃ L0 Ls0, linesOf rest = L0 :: Ls0 := by
            rcases hx : linesOf rest with _ | ⟨L0, Ls0⟩
            · exact absurd hx (linesOf_ne_nil rest)
            · exact ⟨L0, Ls0, rfl⟩
          intro line hline
          apply h line
          rw [linesOf_cons_of_ne c rest L0 Ls0 hc hm]
          rw [hm] at hline
          exact hline
      · intro h
        rw [lineStartsOk_cons, Bool.and_eq_true]
        constructor
        · rw [if_pos rfl, Bool.not_eq_true', decide_eq_false_iff_not]
          by_cases hc : c = '\n'
          · subst hc
            exact dash_pat_no_nl_head p hp rest
          · obtain ⟨L0, Ls0, hm⟩ : ∃ L0 Ls0, linesOf rest = L0 :: Ls0 := by
              rcases hx : linesOf rest with _ | ⟨L0, Ls0⟩
              · exact absurd hx (linesOf_ne_nil rest)
              · exact ⟨L0, Ls0, rfl⟩
            have hhead : c :: L0 ∈ linesOf (c :: rest) := by
              rw [linesOf_cons_of_ne c rest L0 Ls0 hc hm]
              exact List.mem_cons_self _ _
            have hfl : c :: L0 = (c :: rest).takeWhile notNl := by
              exact linesOf_head_takeWhile (c :: rest) (c :: L0) Ls0
                (linesOf_cons_of_ne c rest L0 Ls0 hc hm)
            intro hx
            apply h (c :: L0) hhead
            rw [hfl]
            exact (take_eq_iff_takeWhile p hq (c :: rest)).mp hx
        · by_cases hc : c = '\n'
          · subst hc
            rw [decide_eq_true rfl]
            apply ih.2
            intro line hline
            apply h line
            rw [linesOf, if_pos rfl]
            exact List.mem_cons_of_mem _ hline
          · rw [decide_eq_false hc]
            apply ih.1
            obtain ⟨L0, Ls0, hm⟩ : ∃ L0 Ls0, linesOf rest = L0 :: Ls0 := by
              rcases hx : linesOf rest with _ | ⟨L0, Ls0⟩
              · exact absurd hx (linesOf_ne_nil rest)
              · exact ⟨L0, Ls0, rfl⟩
            intro line hline
            apply h line
            rw [linesOf_cons_of_ne c rest L0 Ls0 hc hm]
            rw [hm] at hline
            exact List.mem_cons_of_mem _ hline

/-- From the line-start scanner to per-line absence of a dash-led
newline-free prefix, in both initial states. -/
theorem lineStartsOk_to_lines (p : List Char) (hp : p.take 1 = ['-'])
    (hq : ∀ x ∈ p, ¬ x = '\n') :
    ∀ l : List Char,
      ((lineStartsOk p false l = true →
        ∀ line ∈ (linesOf l).tail, ¬ (line.take p.length = p)) ∧
      (lineStartsOk p true l = true →
        ∀ line ∈ linesOf l, ¬ (line.take p.length = p))) := by
  intro l
  induction l with
  | nil =>
      constructor
      · intro _ line hline
        simp [linesOf] at hline
      · intro _ line hline
        have h2 : line ∈ ([[]] : List (List Char)) := hline
        rw [List.mem_singleton] at h2
        subst h2
        intro hx
        rw [List.take_nil] at hx
        exact dash_pat_ne_nil p hp hx.symm
  | cons c rest ih =>
      constructor
      · intro h
        rw [lineStartsOk_cons, Bool.and_eq_true] at h
        by_cases hc : c = '\n'
        · subst hc
          rw [decide_eq_true rfl] at h
          rw [linesOf, if_pos rfl]
          exact ih.2 h.2
        · rw [decide_eq_false hc] at h
          obtain ⟨L0, Ls0, hm⟩ : ∃ L0 Ls0, linesOf rest = L0 :: Ls0 := by
            rcases hx : linesOf rest with _ | ⟨L0, Ls0⟩
            · exact absurd hx (linesOf_ne_nil rest)
            · exact ⟨L0, Ls0, rfl⟩
          rw [linesOf_cons_of_ne c rest L0 Ls0 hc hm]
          intro line hline
          apply ih.1 h.2 line
          rw [hm]
          exact hline
      · intro h
        rw [lineStartsOk_cons, Bool.and_eq_true] at h
        have hcheck : ¬ ((c :: rest).take p.length = p) := by
          have h1 := h.1
          rw [if_pos rfl, Bool.not_eq_true', decide_eq_false_iff_not] at h1
          exact h1
        by_cases hc : c = '\n'
        · subst hc
          rw [decide_eq_true rfl] at h
          rw [linesOf, if_pos rfl]
          intro line hline
          rcases List.mem_cons.mp hline with h0 | h0
          · subst h0
            intro hx
            rw [List.take_nil] at hx
            exact dash_pat_ne_nil p hp hx.symm
          · exact ih.2 h.2 line h0
        · rw [decide_eq_false hc] at h
          obtain ⟨L0, Ls0, hm⟩ : ∃ L0 Ls0, linesOf rest = L0 :: Ls0 := by
            rcases hx : linesOf rest with _ | ⟨L0, Ls0⟩
            · exact absurd hx (linesOf_ne_nil rest)
            · exact ⟨L0, Ls0, rfl⟩
          rw [linesOf_cons_of_ne c rest L0 Ls0 hc hm]
          intro line hline
          rcases List.mem_cons.mp hline with h0 | h0
          · subst h0
            have hfl : c :: L0 = (c :: rest).takeWhile notNl :=
              linesOf_head_takeWhile (c :: rest) (c :: L0) Ls0
                (linesOf_cons_of_ne c rest L0 Ls0 hc hm)
            intro hx
            apply hcheck
            apply (take_eq_iff_takeWhile p hq (c :: rest)).mpr
            rw [← hfl]
            exact hx
          · apply ih.1 h.2 line
            rw [hm]
            exact h0

/-- Reshaping of the functional-induction side condition of the front-matter
scanner into the take-5 form. -/
theorem fmPat_not_take5 (c : Char) (rest : List Char)
    (hno : ∀ (r1 : List Char),
      c = '-' → rest = '-' :: '-' :: '\n' :: '\n' :: r1 → False) :
    ¬ (c :: rest).take 5 = fmPat := by
  intro hx
  rw [List.take_succ_cons] at hx
  have hfm : fmPat = '-' :: '-' :: '-' :: '\n' :: '\n' :: ([] : List Char) := rfl
  rw [hfm] at hx
  injection hx with h1 h2
  have hr : rest = '-' :: '-' :: '\n' :: '\n' :: rest.drop 4 := by
    conv_lhs => rw [← List.take_append_drop 4 rest]
    rw [h2]
    rfl
  exact hno (rest.drop 4) h1 hr

/-- Scanner for the absence of a front-matter pattern followed by a third
newline (the only shape on which a second front-matter pass would act). -/
def noPat : List Char → Bool
  | [] => true
  | c :: rest =>
    (! (decide (c = '-') && decide (rest.take 5 = "--\n\n\n".toList))) && noPat rest

/-- One step of the pattern-absence scanner. -/
theorem noPat_cons (c : Char) (rest : List Char) :
    noPat (c :: rest) =
      ((! (decide (c = '-') && decide (rest.take 5 = "--\n\n\n".toList))) &&
        noPat rest) := by
  rw [noPat]

/-- The pattern-absence scanner restricted to the tail. -/
theorem noPat_tail (c : Char) (rest : List Char) (h : noPat (c :: rest) = true) :
    noPat rest = true := by
  rw [noPat_cons, Bool.and_eq_true] at h
  exact h.2

/-- Inside a skip run the front-matter scanner's output does not start with
a newline. -/
theorem fmAux_true_head :
    ∀ (sk : Bool) (r : List Char), sk = true →
      ¬ ((fmAux sk r).take 1 = ['\n']) := by
  intro sk r
  induction sk, r using fmAux.induct with
  | case1 x =>
      intro _ hx
      exact List.noConfusion hx
  | case2 x rest ih =>
      intro _ hx
      rw [fmAux_eq_pat, List.take_succ_cons, List.take_zero] at hx
      injection hx with h1 _
      exact absurd h1 (by decide)
  | case3 sk c rest hno hsk ih =>
      intro _ hx
      rw [Bool.and_eq_true] at hsk
      have hc : c = '\n' := of_decide_eq_true hsk.2
      subst hc
      rw [fmAux_eq_cons sk '\n' rest (by
        intro hy
        rw [List.take_succ_cons] at hy
        exact absurd (List.head_eq_of_cons_eq hy) (by decide))] at hx
      rw [if_pos (by rw [hsk.1, decide_eq_true rfl]; rfl)] at hx
      exact ih rfl hx
  | case4 sk c rest hno hsk ih =>
      intro htrue hx
      subst htrue
      have hc : ¬ c = '\n' := by
        intro h0
        subst h0
        rw [decide_eq_true rfl] at hsk
        simp at hsk
      rw [fmAux_eq_cons true c rest (fmPat_not_take5 c rest hno), if_neg hsk] at hx
      rw [List.take_succ_cons, List.take_zero] at hx
      injection hx with h1 _
      exact hc h1

/-- Outside a skip run the front-matter scanner preserves any prefix of
length at most five. -/
theorem fmAux_take5 :
    ∀ (sk : Bool) (z : List Char), sk = false →
      ∀ k, k ≤ 5 → (fmAux sk z).take k = z.take k := by
  intro sk z
  induction sk, z using fmAux.induct with
  | case1 x => intro _ k _; rfl
  | case2 x rest ih =>
      intro _ k hk
      rw [fmAux_eq_pat]
      interval_cases k <;> rfl
  | case3 sk c rest hno hsk ih =>
      intro hfalse
      subst hfalse
      simp at hsk
  | case4 sk c rest hno hsk ih =>
      intro hfalse k hk
      subst hfalse
      rw [fmAux_eq_cons false c rest (fmPat_not_take5 c rest hno), if_neg (by simp)]
      cases k with
      | zero => rfl
      | succ k' =>
          rw [List.take_succ_cons, List.take_succ_cons, ih rfl k' (by omega)]

/-- The pattern-absence scanner across a front-matter pattern followed by a
non-newline. -/
theorem noPat_pat5 (w : List Char) (hw : ¬ w.take 1 = ['\n'])
    (h : noPat w = true) :
    noPat ('-' :: '-' :: '-' :: '\n' :: '\n' :: w) = true := by
  rw [noPat_cons, Bool.and_eq_true]
  refine ⟨?_, ?_⟩
  · have hx : ¬ (('-' :: '-' :: '\n' :: '\n' :: w).take 5 = "--\n\n\n".toList) := by
      intro hy
      have hy2 : '-' :: '-' :: '\n' :: '\n' :: (w.take 1) =
          '-' :: '-' :: '\n' :: '\n' :: '\n' :: ([] : List Char) := hy
      injection hy2 with _ hy3
      injection hy3 with _ hy4
      injection hy4 with _ hy5
      injection hy5 with _ hy6
      exact hw hy6
    simp [hx, hw]
  rw [noPat_cons, Bool.and_eq_true]
  refine ⟨?_, ?_⟩
  · have hx : ¬ (('-' :: '\n' :: '\n' :: w).take 5 = "--\n\n\n".toList) := by
      intro hy
      have hy2 : '-' :: '\n' :: '\n' :: (w.take 2) =
          '-' :: '-' :: '\n' :: '\n' :: '\n' :: ([] : List Char) := hy
      injection hy2 with _ hy3
      injection hy3 with hy4 _
      exact absurd hy4 (by decide)
    simp [hx]
  rw [noPat_cons, Bool.and_eq_true]
  refine ⟨?_, ?_⟩
  · have hx : ¬ (('\n' :: '\n' :: w).take 5 = "--\n\n\n".toList) := by
      intro hy
      have hy2 : '\n' :: '\n' :: (w.take 3) =
          '-' :: '-' :: '\n' :: '\n' :: '\n' :: ([] : List Char) := hy
      injection hy2 with hy3 _
      exact absurd hy3 (by decide)
    simp [hx]
  rw [noPat_cons, Bool.and_eq_true]
  refine ⟨?_, ?_⟩
  · rw [decide_eq_false (by decide : ¬ ('\n' : Char) = '-')]
    rfl
  rw [noPat_cons, Bool.and_eq_true]
  refine ⟨?_, h⟩
  rw [decide_eq_false (by decide : ¬ ('\n' : Char) = '-')]
  rfl

/-- The front-matter fix establishes pattern absence: its output never has a
front-matter pattern followed by a further newline. -/
theorem fmAux_noPat : ∀ (sk : Bool) (l : List Char), noPat (fmAux sk l) = true := by
  intro sk l
  induction sk, l using fmAux.induct with
  | case1 x => rfl
  | case2 x rest ih =>
      rw [fmAux_eq_pat]
      exact noPat_pat5 (fmAux true rest) (fmAux_true_head true rest rfl) ih
  | case3 sk c rest hno hsk ih =>
      rw [Bool.and_eq_true] at hsk
      have hc : c = '\n' := of_decide_eq_true hsk.2
      subst hc
      rw [fmAux_eq_cons sk '\n' rest (by
        intro hy
        rw [List.take_succ_cons] at hy
        exact absurd (List.head_eq_of_cons_eq hy) (by decide))]
      rw [if_pos (by rw [hsk.1, decide_eq_true rfl]; rfl)]
      exact ih
  | case4 sk c rest hno hsk ih =>
      rw [fmAux_eq_cons sk c rest (fmPat_not_take5 c rest hno), if_neg hsk]
      rw [noPat_cons, Bool.and_eq_true]
      refine ⟨?_, ih⟩
      by_cases hcd : c = '-'
      · subst hcd
        rw [fmAux_take5 false rest rfl 5 (by omega)]
        have hx : ¬ (rest.take 5 = "--\n\n\n".toList) := by
          intro hy
          apply fmPat_not_take5 '-' rest hno
          have h4 : rest.take 4 = "--\n\n".toList := by
            have h5 : (rest.take 5).take 4 = rest.take 4 := by
              rw [List.take_take]
              norm_num
            rw [← h5, hy]
            rfl
          show ('-' :: rest).take 5 = fmPat
          rw [List.take_succ_cons, h4]
          rfl
        rw [decide_eq_true rfl, Bool.true_and, Bool.not_eq_true',
          decide_eq_false_iff_not]
        exact hx
      · simp [hcd]

/-- On pattern-free input the front-matter fix is the identity (inside a
skip run the input must additionally not start with a newline). -/
theorem fmAux_id_of_noPat :
    ∀ (sk : Bool) (l : List Char), noPat l = true →
      (sk = true → ¬ (l.take 1 = ['\n'])) → fmAux sk l = l := by
  intro sk l
  induction sk, l using fmAux.induct with
  | case1 x => intro _ _; rfl
  | case2 x rest ih =>
      intro h hside
      rw [fmAux_eq_pat]
      have hrest : noPat rest = true :=
        noPat_tail _ _ (noPat_tail _ _ (noPat_tail _ _ (noPat_tail _ _
          (noPat_tail _ _ h))))
      have h1 : ¬ (rest.take 1 = ['\n']) := by
        rw [noPat_cons, Bool.and_eq_true] at h
        have h2 := h.1
        rw [Bool.not_eq_true', Bool.and_eq_false_iff] at h2
        rcases h2 with h3 | h3
        · rw [decide_eq_true rfl] at h3
          exact Bool.noConfusion h3
        · intro hr1
          rw [decide_eq_false_iff_not] at h3
          apply h3
          have he : ('-' :: '-' :: '\n' :: '\n' :: rest).take 5 =
              '-' :: '-' :: '\n' :: '\n' :: (rest.take 1) := rfl
          rw [he, hr1]
          rfl
      rw [ih hrest (fun _ => h1)]
  | case3 sk c rest hno hsk ih =>
      intro h hside
      rw [Bool.and_eq_true] at hsk
      have hc : c = '\n' := of_decide_eq_true hsk.2
      subst hc
      exact absurd (show ('\n' :: rest).take 1 = ['\n'] from rfl) (hside hsk.1)
  | case4 sk c rest hno hsk ih =>
      intro h hside
      rw [fmAux_eq_cons sk c rest (fmPat_not_take5 c rest hno), if_neg hsk]
      rw [ih (noPat_tail c rest h) (fun hfalse => Bool.noConfusion hfalse)]

/-- After the five labelled-bullet removal passes no line starts with any of
the five label prefixes. -/
theorem stripAllLabeled_lines (l : List Char) :
    ∀ p ∈ labelPrefixes, ∀ line ∈ linesOf (stripAllLabeled l),
      ¬ (line.take p.length = p) := by
  intro p hp
  have hall : stripAllLabeled l =
      stripLabeled ("- **場景**：".toList)
        (stripLabeled ("- **核心主題**：".toList)
          (stripLabeled ("- **時間軸**：".toList)
            (stripLabeled ("- **POV**：".toList)
              (stripLabeled ("- **字數目標**：".toList) l)))) := by
    simp only [stripAllLabeled, labelPrefixes, List.foldl_cons, List.foldl_nil]
  rw [hall]
  simp only [labelPrefixes, List.mem_cons, List.not_mem_nil, or_false] at hp
  rcases hp with h0 | h0 | h0 | h0 | h0 <;> subst h0
  · exact stripLabeled_preserve _ _ _ (by decide)
      (stripLabeled_preserve _ _ _ (by decide)
        (stripLabeled_preserve _ _ _ (by decide)
          (stripLabeled_preserve _ _ _ (by decide)
            (stripLabeled_establish _ _ (by decide)))))
  · exact stripLabeled_preserve _ _ _ (by decide)
      (stripLabeled_preserve _ _ _ (by decide)
        (stripLabeled_preserve _ _ _ (by decide)
          (stripLabeled_establish _ _ (by decide))))
  · exact stripLabeled_preserve _ _ _ (by decide)
      (stripLabeled_preserve _ _ _ (by decide)
        (stripLabeled_establish _ _ (by decide)))
  · exact stripLabeled_preserve _ _ _ (by decide)
      (stripLabeled_establish _ _ (by decide))
  · exact stripLabeled_establish _ _ (by decide)

/-- Every line of the cleaner's output avoids all five label prefixes. -/
theorem cleanChapter_lines (s : List Char) :
    ∀ p ∈ labelPrefixes, ∀ line ∈ linesOf (cleanChapter s),
      ¬ (line.take p.length = p) := by
  intro p hp
  have hfacts : p.take 1 = ['-'] ∧ ∀ x ∈ p, ¬ x = '\n' := by
    simp only [labelPrefixes, List.mem_cons, List.not_mem_nil, or_false] at hp
    rcases hp with h0 | h0 | h0 | h0 | h0 <;> subst h0 <;> exact ⟨by decide, by decide⟩
  have hv : lineStartsOk p true
      (stripAllLabeled (cleanMetadataBlocks s)) = true :=
    (lines_to_lineStartsOk p hfacts.1 hfacts.2 _).2
      (stripAllLabeled_lines (cleanMetadataBlocks s) p hp)
  have hw : lineStartsOk p true
      (collapseAux 0 (stripAllLabeled (cleanMetadataBlocks s))) = true :=
    collapseAux_lineStartsOk p hfacts.1 hfacts.2 _ 0 true hv
  have ht : lineStartsOk p true (cleanChapter s) = true :=
    fmAux_lineStartsOk p hfacts.1 hfacts.2 false _ true hw
  exact (lineStartsOk_to_lines p hfacts.1 hfacts.2 _).2 ht

/-- C3 (amended): conditional idempotence of cleaning.  A second cleaning
pass changes nothing provided the first pass's output contains no metadata
opening tag (the unconditional claim fails: `c3_counterexample` splices a
new `<metadata>` tag out of the removal of an inner block).  The labelled
bullets, blank-line collapse and front-matter fix are idempotent on every
input; only the metadata-block removal can re-trigger. -/
theorem cleanChapter_idempotent_of_no_opener (s : List Char)
    (h : hasOpener (cleanChapter s) = false) :
    cleanChapter (cleanChapter s) = cleanChapter s := by
  have hok : okAux 0 (cleanChapter s) = true :=
    fmAux_ok false _ 0 (collapseAux_ok _ 0)
  have hnp : noPat (cleanChapter s) = true := fmAux_noPat false _
  have hcm : cleanMetadataBlocks (cleanChapter s) = cleanChapter s :=
    cmAux_normal_id _ h
  have hstrip : stripAllLabeled (cleanChapter s) = cleanChapter s := by
    have hall : stripAllLabeled (cleanChapter s) =
        stripLabeled ("- **場景**：".toList)
          (stripLabeled ("- **核心主題**：".toList)
            (stripLabeled ("- **時間軸**：".toList)
              (stripLabeled ("- **POV**：".toList)
                (stripLabeled ("- **字數目標**：".toList) (cleanChapter s))))) := by
      simp only [stripAllLabeled, labelPrefixes, List.foldl_cons, List.foldl_nil]
    rw [hall]
    rw [stripLabeled_id _ _ (cleanChapter_lines s _ (by decide)),
      stripLabeled_id _ _ (cleanChapter_lines s _ (by decide)),
      stripLabeled_id _ _ (cleanChapter_lines s _ (by decide)),
      stripLabeled_id _ _ (cleanChapter_lines s _ (by decide)),
      stripLabeled_id _ _ (cleanChapter_lines s _ (by decide))]
  have hcol : collapseNewlines (cleanChapter s) = cleanChapter s := by
    have h0 := collapseAux_id (cleanChapter s) 0 hok (by omega)
    rw [List.replicate_zero, List.nil_append] at h0
    exact h0
  have hfm : fixFrontmatterBlanks (cleanChapter s) = cleanChapter s :=
    fmAux_id_of_noPat false _ hnp (fun h0 => Bool.noConfusion h0)
  have hexp : cleanChapter (cleanChapter s) =
      fixFrontmatterBlanks (collapseNewlines (stripAllLabeled
        (cleanMetadataBlocks (cleanChapter s)))) := rfl
  rw [hexp, hcm, hstrip, hcol, hfm]

/-- Witness for C3 at a concrete chapter containing a metadata block, a
labelled bullet and a run of five blank lines. -/
theorem cleanChapter_idempotent_witness :
    hasOpener (cleanChapter
      "<metadata>\nA\n</metadata>\n# T\n- **POV**：X\nBody\n\n\n\n\n\nEnd".toList)
        = false ∧
    cleanChapter (cleanChapter
      "<metadata>\nA\n</metadata>\n# T\n- **POV**：X\nBody\n\n\n\n\n\nEnd".toList) =
      cleanChapter
        "<metadata>\nA\n</metadata>\n# T\n- **POV**：X\nBody\n\n\n\n\n\nEnd".toList :=
  ⟨by decide, cleanChapter_idempotent_of_no_opener _ (by decide)⟩
